import Mathlib

/-!
A verification development for the `cchistory` exporter (`src/main.py`).
Text is modelled as `List Char` (Python `str` code points), JSON values as
the inductive `JVal`, and each Python helper of the transcript pipeline is
translated into an executable Lean definition.  Fallible Python operations
(attribute errors on `.get`/`.strip`, `len()` of a non-sized value) are
modelled with `Except PyError`.
-/

set_option maxRecDepth 4000

/-! ## Content cleaning (`clean_content`, `src/main.py:470-501`) -/

/-- The ASCII whitespace characters matched by Python's `\s` and `str.strip()`
(the rarely used further Unicode whitespace code points are not modelled;
no input in this development contains them). -/
def pyWs (c : Char) : Bool :=
  c = ' ' || c = '\t' || c = '\n' || c = '\r' || c = Char.ofNat 11 || c = Char.ofNat 12

/-- `re.sub(r'^\s*\d+\s*→', '', line)`: if the line consists of optional
whitespace, then at least one digit, then optional whitespace, then the
arrow glyph, followed by a remainder, replace the matched part by nothing.
The `^`-anchored pattern matches at most once. -/
def stripNumArrow (l : List Char) : List Char :=
  let s1 := l.dropWhile pyWs
  let ds := s1.takeWhile Char.isDigit
  if ds = [] then l
  else
    match (s1.drop ds.length).dropWhile pyWs with
    | c :: rest => if c = '→' then rest else l
    | [] => l

/-- `re.sub(r'^→\s*', '', line)`: strip one leading arrow glyph and the
whitespace following it. -/
def stripBareArrow : List Char → List Char
  | c :: rest => if c = '→' then rest.dropWhile pyWs else c :: rest
  | [] => []

/-- One line of `clean_content`: first the line-number pattern, then the
bare-arrow pattern (applied to the result of the first substitution). -/
def cleanLine (l : List Char) : List Char := stripBareArrow (stripNumArrow l)

/-- `content.split('\n')`.  Always returns at least one (possibly empty) line. -/
def splitLines : List Char → List (List Char)
  | [] => [[]]
  | c :: cs =>
    if c = '\n' then [] :: splitLines cs
    else
      match splitLines cs with
      | l :: ls => (c :: l) :: ls
      | [] => [[c]]

/-- `sep.join(pieces)` for a one-character separator. -/
def joinWith (sep : Char) : List (List Char) → List Char
  | [] => []
  | [l] => l
  | l :: l2 :: ls => l ++ sep :: joinWith sep (l2 :: ls)

/-- `clean_content` on a string argument (`src/main.py:470-501`): empty/falsy
input yields the empty string, otherwise split on newlines, clean each line,
and rejoin. -/
def clean_content (content : List Char) : List Char :=
  if content = [] then []
  else joinWith '\n' ((splitLines content).map cleanLine)

/-! ## JSON values and Python field-access semantics -/

/-- A parsed JSON value.  Arrays and objects are modelled with their own
spine constructors (instead of `List` arguments) so that all recursion
stays structural; `jarrOf`/`jobjOf` build them from Lean lists.  JSON
numbers are modelled as integers (no claim involves floats). -/
inductive JVal where
  | jnull
  | jbool (b : Bool)
  | jnum (n : Int)
  | jstr (s : List Char)
  | jarrNil
  | jarrCons (hd tl : JVal)
  | jobjNil
  | jobjCons (k : String) (v : JVal) (tl : JVal)
  deriving DecidableEq

/-- A Python-level error: `TypeError` (e.g. `len()` of an unsized value) or
`AttributeError` (e.g. `.get`/`.strip` on a value without that method). -/
inductive PyError where
  | typeErr
  | attrErr
  deriving DecidableEq

def jstrS (s : String) : JVal := .jstr s.data

def jarrOf : List JVal → JVal
  | [] => .jarrNil
  | v :: vs => .jarrCons v (jarrOf vs)

def jobjOf : List (String × JVal) → JVal
  | [] => .jobjNil
  | (k, v) :: fs => .jobjCons k v (jobjOf fs)

/-- `isinstance(v, dict)`. -/
def isDict : JVal → Bool
  | .jobjNil => true
  | .jobjCons _ _ _ => true
  | _ => false

/-- `isinstance(v, list)`. -/
def isArr : JVal → Bool
  | .jarrNil => true
  | .jarrCons _ _ => true
  | _ => false

/-- The elements of an array value, as a Lean list. -/
def arrToList : JVal → List JVal
  | .jarrCons h t => h :: arrToList t
  | _ => []

def objLookup : JVal → String → Option JVal
  | .jobjCons k v t, key => if k = key then some v else objLookup t key
  | _, _ => none

/-- `d.get(k, dflt)` on a value already known to be a dict. -/
def dictGet (d : JVal) (k : String) (dflt : JVal) : JVal :=
  (objLookup d k).getD dflt

/-- `v.get(k, dflt)`: `AttributeError` unless `v` is a dict. -/
def pyGetE (v : JVal) (k : String) (dflt : JVal) : Except PyError JVal :=
  if isDict v then .ok (dictGet v k dflt) else .error .attrErr

/-- Python truthiness of a JSON value. -/
def pyTruthy : JVal → Bool
  | .jnull => false
  | .jbool b => b
  | .jnum n => n != 0
  | .jstr s => !s.isEmpty
  | .jarrNil => false
  | .jarrCons _ _ => true
  | .jobjNil => false
  | .jobjCons _ _ _ => true

def arrLen : JVal → Nat
  | .jarrCons _ t => 1 + arrLen t
  | _ => 0

def objLen : JVal → Nat
  | .jobjCons _ _ t => 1 + objLen t
  | _ => 0

/-- `len(v)`: `none` models the `TypeError` raised for unsized values. -/
def pyLen : JVal → Option Nat
  | .jstr s => some s.length
  | .jarrNil => some 0
  | .jarrCons h t => some (arrLen (.jarrCons h t))
  | .jobjNil => some 0
  | .jobjCons k v t => some (objLen (.jobjCons k v t))
  | _ => none

def backslashChar : Char := Char.ofNat 92
def aposChar : Char := Char.ofNat 39
def lbrace : Char := Char.ofNat 123
def rbrace : Char := Char.ofNat 125

/-- Escaping used by Python `repr` of a string.  Simplified: only the
backslash, the single quote and `\n`/`\r`/`\t` are escaped (Python also
switches quote style and escapes other control characters; no proved
theorem depends on the repr of such strings). -/
def escapeRepr : List Char → List Char
  | [] => []
  | c :: cs =>
    (if c = backslashChar then [backslashChar, backslashChar]
     else if c = aposChar then [backslashChar, aposChar]
     else if c = '\n' then [backslashChar, 'n']
     else if c = '\r' then [backslashChar, 'r']
     else if c = '\t' then [backslashChar, 't']
     else [c]) ++ escapeRepr cs

def pyReprStr (s : List Char) : List Char :=
  aposChar :: escapeRepr s ++ [aposChar]

mutual
/-- Python `repr` of a JSON value (equal to `str` except on strings). -/
def pyRepr : JVal → List Char
  | .jnull => "None".data
  | .jbool b => if b then "True".data else "False".data
  | .jnum n => (toString n).data
  | .jstr s => pyReprStr s
  | .jarrNil => "[]".data
  | .jarrCons h t => '[' :: (pyRepr h ++ pyArrTail t)
  | .jobjNil => [lbrace, rbrace]
  | .jobjCons k v t => lbrace :: (pyReprStr k.data ++ ": ".data ++ pyRepr v ++ pyObjTail t)

def pyArrTail : JVal → List Char
  | .jarrCons h t => ',' :: ' ' :: (pyRepr h ++ pyArrTail t)
  | _ => [']']

def pyObjTail : JVal → List Char
  | .jobjCons k v t => ',' :: ' ' :: (pyReprStr k.data ++ ": ".data ++ pyRepr v ++ pyObjTail t)
  | _ => [rbrace]
end

/-- Python `str()` of a JSON value. -/
def pyStr : JVal → List Char
  | .jstr s => s
  | v => pyRepr v

/-- `clean_content` applied to an arbitrary value: falsy values yield the
empty string, non-strings are stringified first (`src/main.py:480-485`). -/
def cleanContentV (v : JVal) : List Char :=
  if pyTruthy v = false then []
  else clean_content (pyStr v)

/-- `str.strip()` is truthy, i.e. the string has a non-whitespace character. -/
def hasNonWs (s : List Char) : Bool := s.any (fun c => !pyWs c)

/-! ## Header formatting (`format_timestamp`, `_format_message_header`) -/

/-- A character matched by the `[\d:]` class. -/
def isTsChar (c : Char) : Bool := c.isDigit || c = ':'

/-- The eight digit tests of the `\d{4}-\d{2}-\d{2}` date part. -/
def dateShape (y1 y2 y3 y4 m1 m2 d1 d2 : Char) : Bool :=
  y1.isDigit && y2.isDigit && y3.isDigit && y4.isDigit && m1.isDigit && m2.isDigit
    && d1.isDigit && d2.isDigit

/-- The `\.?\d*` part of the timestamp pattern: an optional dot followed
by a maximal digit run. -/
def fracOf : List Char → List Char
  | c :: r2 => if c = '.' then '.' :: r2.takeWhile Char.isDigit else []
  | [] => []

/-- The `[\d:]+\.?\d*` part of the timestamp pattern, applied to what
follows the `T`: the maximal digit/colon run (which must be non-empty),
then the optional fraction. -/
def tsTail (rest : List Char) : Option (List Char) :=
  let run := rest.takeWhile isTsChar
  if run = [] then none
  else some (run ++ fracOf (rest.drop run.length))

/-- The anchored search of `re.match(r'^(\d{4}-\d{2}-\d{2}T[\d:]+\.?\d*)(?:Z|([+-]\d{2}:\d{2}))?', ts)`,
returning group 1 when the pattern matches (the trailing `Z`/offset group
is optional and not part of group 1, so it needs no modelling). -/
def tsCore : List Char → Option (List Char)
  | y1 :: y2 :: y3 :: y4 :: '-' :: m1 :: m2 :: '-' :: d1 :: d2 :: 'T' :: rest =>
    if dateShape y1 y2 y3 y4 m1 m2 d1 d2 then
      (tsTail rest).map (fun t => [y1, y2, y3, y4, '-', m1, m2, '-', d1, d2, 'T'] ++ t)
    else none
  | _ => none

/-- `format_timestamp` (`src/main.py:503-521`): keep only the matched
date-time core, pass non-matching timestamps through unchanged. -/
def format_timestamp (ts : List Char) : List Char :=
  if ts = [] then []
  else
    match tsCore ts with
    | some core => core
    | none => ts

/-- `format_timestamp` applied to an arbitrary JSON value: falsy values
yield the empty string, a non-string truthy value makes `re.match` raise
`TypeError`. -/
def formatTimestampE : JVal → Except PyError (List Char)
  | v =>
    if pyTruthy v = false then .ok []
    else
      match v with
      | .jstr s => .ok (format_timestamp s)
      | _ => .error .typeErr

/-- Modelled from the claim wording of C9: a string that begins with the
strict ISO-8601 shape `YYYY-MM-DDTHH:MM:SS`. -/
def specIsoStrictShape : List Char → Bool
  | y1 :: y2 :: y3 :: y4 :: '-' :: m1 :: m2 :: '-' :: d1 :: d2 :: 'T'
      :: h1 :: h2 :: ':' :: n1 :: n2 :: ':' :: s1 :: s2 :: _ =>
    y1.isDigit && y2.isDigit && y3.isDigit && y4.isDigit && m1.isDigit && m2.isDigit
      && d1.isDigit && d2.isDigit && h1.isDigit && h2.isDigit && n1.isDigit && n2.isDigit
      && s1.isDigit && s2.isDigit
  | _ => false

/-! ## Language packs (`LANGUAGES`, `src/main.py:23-34`) -/

/-- One language's label pack: the five fields supplied per language. -/
structure LangPack where
  user : String
  assistant : String
  tool : String
  result : String
  param : String
  deriving DecidableEq

def packZh : LangPack := ⟨"👤 用户", "🤖 助手", "🔧", "✅ 结果:", "参数:"⟩
def packEn : LangPack := ⟨"👤 User", "🤖 Assistant", "🔧", "✅ Result:", "Args:"⟩
def packEs : LangPack := ⟨"👤 Usuario", "🤖 Asistente", "🔧", "✅ Resultado:", "Parámetros:"⟩
def packFr : LangPack := ⟨"👤 Utilisateur", "🤖 Assistant", "🔧", "✅ Résultat:", "Paramètres:"⟩
def packDe : LangPack := ⟨"👤 Benutzer", "🤖 Assistent", "🔧", "✅ Ergebnis:", "Parameter:"⟩
def packJa : LangPack := ⟨"👤 ユーザー", "🤖 アシスタント", "🔧", "✅ 結果:", "引数:"⟩
def packKo : LangPack := ⟨"👤 사용자", "🤖 어시스턴트", "🔧", "✅ 결과:", "매개변수:"⟩
def packRu : LangPack := ⟨"👤 Пользователь", "🤖 Ассистент", "🔧", "✅ Результат:", "Параметры:"⟩
def packPt : LangPack := ⟨"👤 Usuário", "🤖 Assistente", "🔧", "✅ Resultado:", "Parâmetros:"⟩
def packIt : LangPack := ⟨"👤 Utente", "🤖 Assistente", "🔧", "✅ Risultato:", "Parametri:"⟩

def LANGUAGES : List (String × LangPack) :=
  [("zh", packZh), ("en", packEn), ("es", packEs), ("fr", packFr), ("de", packDe),
   ("ja", packJa), ("ko", packKo), ("ru", packRu), ("pt", packPt), ("it", packIt)]

/-- `self.lang = lang if lang in LANGUAGES else 'zh'` followed by
`self.texts = LANGUAGES[self.lang]` (`src/main.py:57-58`). -/
def selectLang (code : String) : LangPack :=
  match LANGUAGES.find? (fun p => p.1 == code) with
  | some p => p.2
  | none => packZh

/-! ## Class constants (`src/main.py:41-43`) -/

def SEPARATOR_LENGTH : Nat := 80
def MAX_RESULT_LENGTH : Nat := 5000
def MAX_FILENAME_BYTES : Nat := 60

/-- `'─' * self.SEPARATOR_LENGTH`. -/
def sepLine : List Char := List.replicate SEPARATOR_LENGTH '─'

/-! ## Structure formatter (`format_dict`, `src/main.py:523-547`) -/

/-- Nesting depth of a value; used only as recursion fuel for `format_dict`
(a field value always has a strictly smaller depth than its object). -/
def jdepth : JVal → Nat
  | .jarrCons h t => 1 + max (jdepth h) (jdepth t)
  | .jobjCons _ v t => 1 + max (jdepth v) (jdepth t)
  | _ => 1

def objKeys : JVal → List String
  | .jobjCons k _ t => k :: objKeys t
  | _ => []

/-- Python string `<` on code points (used by `sorted(data.keys())`). -/
def strLtB : List Char → List Char → Bool
  | [], [] => false
  | [], _ :: _ => true
  | _ :: _, [] => false
  | a :: as, b :: bs => if a.val < b.val then true else if b.val < a.val then false else strLtB as bs

def insertKey (k : String) : List String → List String
  | [] => [k]
  | x :: xs => if strLtB k.data x.data then k :: x :: xs else x :: insertKey k xs

/-- `sorted(keys)` (insertion sort; keys of a Python dict are distinct, so
any stable comparison sort agrees). -/
def sortKeys : List String → List String
  | [] => []
  | k :: ks => insertKey k (sortKeys ks)

/-- `sep.join(pieces)` for a multi-character separator. -/
def joinWithSep (sep : List Char) : List (List Char) → List Char
  | [] => []
  | [l] => l
  | l :: l2 :: ls => l ++ sep ++ joinWithSep sep (l2 :: ls)

/-- `format_dict` (`src/main.py:523-547`): keys sorted, nested dicts
recurse with one more indent level, lists render their elements' `str`
forms, everything joined on one line inside braces.  Recursion is by fuel
(`jdepth` bounds the nesting, so the fuel never runs out). -/
def format_dictF : Nat → JVal → Nat → List Char
  | 0, v, _ => pyStr v
  | fuel + 1, v, indent =>
    if isDict v then
      let entries := (sortKeys (objKeys v)).map (fun k =>
        let val := dictGet v k .jnull
        List.replicate (2 * indent) ' ' ++ k.data ++ ": ".data ++
          (if isDict val then format_dictF fuel val (indent + 1)
           else if isArr val then '[' :: (joinWithSep ", ".data ((arrToList val).map pyStr) ++ [']'])
           else pyStr val))
      lbrace :: (joinWithSep ", ".data entries ++ [rbrace])
    else pyStr v

def format_dict (v : JVal) (indent : Nat) : List Char := format_dictF (jdepth v) v indent

/-! ## Content renderer items (`src/main.py:324-421`) -/

/-- The truncation marker appended by `_process_tool_result_item`
(`src/main.py:375`): a fixed string literal, independent of the language
pack. -/
def truncMarker : List Char := "\n... (内容过长，已截断)\n".data

/-- `_process_tool_result_item` (`src/main.py:361-378`).  `len()` of an
unsized content value raises `TypeError`; slicing a sized non-string and
concatenating the marker also raises `TypeError`. -/
def processToolResultItem (pack : LangPack) (item : JVal) : Except PyError (List Char) :=
  match pyGetE item "content" (jstrS "") with
  | .error e => .error e
  | .ok rc =>
    match pyLen rc with
    | none => .error .typeErr
    | some n =>
      if MAX_RESULT_LENGTH < n then
        match rc with
        | .jstr s =>
          .ok ("\n".data ++ pack.result.data ++ "\n\n".data
            ++ clean_content (s.take MAX_RESULT_LENGTH ++ truncMarker) ++ "\n".data)
        | _ => .error .typeErr
      else
        .ok ("\n".data ++ pack.result.data ++ "\n\n".data ++ cleanContentV rc ++ "\n".data)

/-- `_process_text_item` (`src/main.py:324-337`).  `.strip()` on a
non-string `text` field raises `AttributeError`. -/
def processTextItem (item : JVal) : Except PyError (List Char × Bool) :=
  match pyGetE item "text" (jstrS "") with
  | .error e => .error e
  | .ok tv =>
    match tv with
    | .jstr s => if hasNonWs s then .ok (clean_content s, true) else .ok ([], false)
    | _ => .error .attrErr

/-- `_process_tool_use_item` (`src/main.py:339-359`). -/
def processToolUseItem (pack : LangPack) (item : JVal) (isFirst : Bool) :
    Except PyError (List Char) :=
  match pyGetE item "name" (jstrS "") with
  | .error e => .error e
  | .ok nameV =>
    match pyGetE item "input" .jnull with
    | .error e => .error e
    | .ok inputV =>
      let base := (if isFirst then "\n\n".data else "\n".data)
        ++ pack.tool.data ++ " ".data ++ pyStr nameV ++ "\n".data
      if pyTruthy inputV then
        .ok (base ++ pack.param.data ++ " ".data ++ format_dict inputV 0 ++ "\n".data)
      else
        .ok base

/-- The loop body of `_process_content_list` (`src/main.py:380-421`),
accumulating the rendered parts in order; the Boolean is the
`is_first_tool` flag. -/
def pclGo (pack : LangPack) : List JVal → Bool → Except PyError (List (List Char))
  | [], _ => .ok []
  | it :: rest, isFirst =>
    if isDict it then
      if dictGet it "type" (jstrS "") = jstrS "thinking" then pclGo pack rest isFirst
      else if dictGet it "type" (jstrS "") = jstrS "text" then
        match processTextItem it with
        | .error e => .error e
        | .ok fh =>
          if fh.2 then
            match pclGo pack rest true with
            | .error e => .error e
            | .ok r => .ok (fh.1 :: r)
          else pclGo pack rest isFirst
      else if dictGet it "type" (jstrS "") = jstrS "tool_use" then
        match processToolUseItem pack it isFirst with
        | .error e => .error e
        | .ok f =>
          match pclGo pack rest false with
          | .error e => .error e
          | .ok r => .ok (f :: r)
      else if dictGet it "type" (jstrS "") = jstrS "tool_result" then
        match processToolResultItem pack it with
        | .error e => .error e
        | .ok f =>
          match pclGo pack rest isFirst with
          | .error e => .error e
          | .ok r => .ok (f :: r)
      else pclGo pack rest isFirst
    else pclGo pack rest isFirst

/-- `_process_content_list` (`src/main.py:380-421`): returns
`(''.join(parts), len(parts) > 0)`. -/
def processContentList (pack : LangPack) (content : JVal) :
    Except PyError (List Char × Bool) :=
  match pclGo pack (arrToList content) true with
  | .error e => .error e
  | .ok parts => .ok (parts.foldr (fun a b => a ++ b) [], !parts.isEmpty)

/-- `clean_content` without the redundant falsy guard (on the empty string
both branches give the empty string); convenient for proofs. -/
def cleanCore (content : List Char) : List Char :=
  joinWith '\n' ((splitLines content).map cleanLine)

/-! ## Content analyzer (`_analyze_content`, `src/main.py:279-322`) -/

/-- The result of `_analyze_content`: the gathered plain text and the
`has_tools` flag. -/
structure ContentInfo where
  text : List Char
  hasTools : Bool
  deriving DecidableEq

/-- The per-item loop of `_analyze_content`: non-dict items are skipped;
a `tool_use`/`tool_result` type sets the flag; a truthy `text` field of a
`text` item contributes its cleaned text. -/
def analyzeItems : List JVal → List (List Char) × Bool
  | [] => ([], false)
  | it :: rest =>
    if isDict it then
      ((if dictGet it "type" (jstrS "") == jstrS "text" then
          (if pyTruthy (dictGet it "text" (jstrS "")) then
            cleanContentV (dictGet it "text" (jstrS "")) :: (analyzeItems rest).1
          else (analyzeItems rest).1)
        else (analyzeItems rest).1),
       ((dictGet it "type" (jstrS "") == jstrS "tool_use")
         || (dictGet it "type" (jstrS "") == jstrS "tool_result")
         || (analyzeItems rest).2))
    else analyzeItems rest

/-- `_analyze_content` (`src/main.py:279-322`). -/
def analyze_content (content : JVal) : ContentInfo :=
  match content with
  | .jstr s => ⟨clean_content s, false⟩
  | v =>
    if isArr v then
      ⟨joinWith '\n' (analyzeItems (arrToList v)).1, (analyzeItems (arrToList v)).2⟩
    else ⟨[], false⟩

/-- Modelled from the claim wording of C6: a content item "of type
`tool_use` or `tool_result`" (a mapping whose `type` field is one of the
two tool types). -/
def specToolItem (it : JVal) : Bool :=
  isDict it && ((dictGet it "type" (jstrS "") == jstrS "tool_use")
    || (dictGet it "type" (jstrS "") == jstrS "tool_result"))

/-! ## Message rendering and the merge engine (`src/main.py:108-277, 423-468`) -/

/-- `_format_message_header` (`src/main.py:218-234`); `role` is the raw
JSON value from `message.get('role','')`, compared against `'user'`. -/
def formatHeader (pack : LangPack) (role : JVal) (ft : List Char) : List Char :=
  '\n' :: sepLine ++ '\n' :: (if role = jstrS "user" then pack.user.data else pack.assistant.data)
    ++ " | ".data ++ ft ++ '\n' :: sepLine ++ '\n' :: []

/-- The content-shape dispatch of `extract_message` (`src/main.py:452-460`):
a list goes through `_process_content_list`, a string is cleaned and kept
when non-blank, anything else contributes nothing. -/
def contentRender (pack : LangPack) (content : JVal) : Except PyError (List Char × Bool) :=
  if isArr content then processContentList pack content
  else
    match content with
    | .jstr s =>
      .ok (if hasNonWs (clean_content s) then clean_content s else [],
        hasNonWs (clean_content s))
    | _ => .ok (([] : List Char), false)

/-- `extract_message` (`src/main.py:423-468`): the full per-message
rendering, headers included. -/
def extract_message (pack : LangPack) (data : JVal) : Except PyError (List Char) :=
  match pyGetE data "type" (jstrS "") with
  | .error e => .error e
  | .ok msgType =>
    match pyGetE data "message" .jobjNil with
    | .error e => .error e
    | .ok message =>
      match pyGetE data "timestamp" (jstrS "") with
      | .error e => .error e
      | .ok ts =>
        if msgType = jstrS "user" ∨ msgType = jstrS "assistant" then
          match pyGetE message "role" (jstrS "") with
          | .error e => .error e
          | .ok role =>
            match pyGetE message "content" (jstrS "") with
            | .error e => .error e
            | .ok content =>
              if content = .jnull then .ok []
              else
                match formatTimestampE ts with
                | .error e => .error e
                | .ok ft =>
                  match contentRender pack content with
                  | .error e => .error e
                  | .ok co =>
                    if co.2 then .ok (formatHeader pack role ft ++ co.1 ++ "\n\n".data)
                    else .ok []
        else .ok []

/-- One entry of the `pending_messages` list built by the per-record loop
(`src/main.py:164-169`). -/
structure MsgObj where
  data : JVal
  role : JVal
  text : List Char
  has_tools : Bool
  deriving DecidableEq

/-- The header of a merged group (`src/main.py:250-255`): role from the
message object, timestamp freshly read from the first member's raw
record. -/
def headerE (pack : LangPack) (m : MsgObj) : Except PyError (List Char) := do
  let ts ← pyGetE m.data "timestamp" (jstrS "")
  let ft ← formatTimestampE ts
  pure (formatHeader pack m.role ft)

/-- The separation newline inserted before a tool member whose predecessor
was a plain-text member (`src/main.py:261-263`). -/
def sepOfPrev : Option Bool → List Char
  | some false => '\n' :: []
  | _ => []

/-- What a tool member's full rendering `f` contributes to the entry
(`src/main.py:265-271`): nothing if `f` is empty or splits into five or
fewer lines, otherwise everything after its first five lines. -/
def toolContrib (f : List Char) : List Char :=
  if f = [] then []
  else if 5 < (splitLines f).length then joinWith '\n' ((splitLines f).drop 5)
  else []

/-- One member's contribution combined with the rest of the group, the
loop body of `format_merged_messages` (`src/main.py:258-274`): a
tool-bearing member is re-rendered in full (`ex`) and contributes
`toolContrib` of that rendering, preceded by the separation newline; a
plain member contributes its stored text.  `restRes` is the rest of the
group's body. -/
def fmmStep (prev : Option Bool) (m : MsgObj) (ex : Except PyError (List Char))
    (restRes : Except PyError (List Char)) : Except PyError (List Char) :=
  if m.has_tools then
    match ex with
    | .error e => .error e
    | .ok f =>
      match restRes with
      | .error e => .error e
      | .ok restOut => .ok ((sepOfPrev prev ++ toolContrib f) ++ restOut)
  else
    match restRes with
    | .error e => .error e
    | .ok restOut => .ok (m.text ++ restOut)

def fmmBody (pack : LangPack) : Option Bool → List MsgObj → Except PyError (List Char)
  | _, [] => pure []
  | prev, m :: rest =>
    fmmStep prev m (extract_message pack m.data) (fmmBody pack (some m.has_tools) rest)

/-- `format_merged_messages` (`src/main.py:236-277`). -/
def format_merged_messages (pack : LangPack) (msgs : List MsgObj) :
    Except PyError (List Char) :=
  match msgs with
  | [] => pure []
  | first :: _ => do
    let h ← headerE pack first
    let b ← fmmBody pack none msgs
    pure (h ++ b ++ "\n\n".data)

/-- Flushing a rendered group (`src/main.py:184-191`): append it to the
transcript and bump the counter only when the rendered text is non-empty
(`if formatted:`). -/
def flushRes (f : Except PyError (List Char)) (acc : List Char) (count : Nat) :
    Except PyError (List Char × Nat) :=
  match f with
  | .error e => .error e
  | .ok t => if t = [] then .ok (acc, count) else .ok (acc ++ t, count + 1)

/-- The role-merge accumulation loop of `process_jsonl_file`
(`src/main.py:171-198`) applied to a stream of already-classified
messages: `pending` accumulates the current same-role group, `acc` the
transcript text, `count` the emitted-entry counter. -/
def mergeGo (pack : LangPack) :
    List MsgObj → List MsgObj → List Char → Nat → Except PyError (List Char × Nat)
  | [], pending, acc, count =>
    match pending with
    | [] => .ok (acc, count)
    | _ :: _ => flushRes (format_merged_messages pack pending) acc count
  | m :: rest, pending, acc, count =>
    match pending with
    | [] => mergeGo pack rest [m] acc count
    | p0 :: _ =>
      if m.role = p0.role then mergeGo pack rest (pending ++ [m]) acc count
      else
        match flushRes (format_merged_messages pack pending) acc count with
        | .error e => .error e
        | .ok ac => mergeGo pack rest [m] ac.1 ac.2

/-- The Merge Engine on a sequence of Classified Messages. -/
def mergeLoop (pack : LangPack) (msgs : List MsgObj) : Except PyError (List Char × Nat) :=
  mergeGo pack msgs [] [] 0

/-- The number of maximal runs of equal consecutive roles. -/
def runCount : List JVal → Nat
  | [] => 0
  | [_] => 1
  | a :: b :: t => (if a = b then 0 else 1) + runCount (b :: t)

/-- Prepending one message to a run decomposition: it joins the first run
when the roles agree, otherwise starts a new run. -/
def runsStep (m : MsgObj) : List (List MsgObj) → List (List MsgObj)
  | (x :: xs) :: rs =>
    if m.role = x.role then (m :: x :: xs) :: rs else [m] :: (x :: xs) :: rs
  | _ => [[m]]

/-- The maximal runs of consecutive same-role messages. -/
def runsOf : List MsgObj → List (List MsgObj)
  | [] => []
  | m :: t => runsStep m (runsOf t)

/-- The number of runs whose rendered transcript entry is fully empty. -/
def emptyFlushCount (pack : LangPack) (msgs : List MsgObj) : Nat :=
  ((runsOf msgs).filter (fun r =>
    match format_merged_messages pack r with
    | .ok [] => true
    | _ => false)).length

/-- Renderability of one classified message: its group header and its full
re-rendering both succeed.  This holds for every message whose record is a
mapping with string-or-falsy timestamp and well-shaped content items; a
pathological record (e.g. an integer `tool_result.content`) can make
rendering raise, aborting the whole stream. -/
def wellRendered (pack : LangPack) (m : MsgObj) : Bool :=
  (match headerE pack m with
   | .ok _ => true
   | .error _ => false)
  && (match extract_message pack m.data with
      | .ok _ => true
      | .error _ => false)

/-! ## The per-record loop (`process_jsonl_file`, `src/main.py:124-198`) -/

/-- Classification of one parsed record (`src/main.py:137-169`): skip
snapshots, non-user/assistant types, null content, and records with blank
text and no tools; otherwise build the message object.  Field access on a
non-mapping record or `message` raises. -/
def classifyRecord (data : JVal) : Except PyError (Option MsgObj) :=
  match pyGetE data "type" .jnull with
  | .error e => .error e
  | .ok t0 =>
    if t0 = jstrS "file-history-snapshot" then .ok none
    else
      match pyGetE data "type" (jstrS "") with
      | .error e => .error e
      | .ok msgType =>
        if msgType = jstrS "user" ∨ msgType = jstrS "assistant" then
          match pyGetE data "message" .jobjNil with
          | .error e => .error e
          | .ok message =>
            match pyGetE message "role" (jstrS "") with
            | .error e => .error e
            | .ok role =>
              match pyGetE message "content" (jstrS "") with
              | .error e => .error e
              | .ok content =>
                if content = .jnull then .ok none
                else
                  if !hasNonWs (analyze_content content).text
                      && !(analyze_content content).hasTools then .ok none
                  else
                    .ok (some ⟨data, role, (analyze_content content).text,
                      (analyze_content content).hasTools⟩)
        else .ok none

/-- The per-record loop of `process_jsonl_file` (`src/main.py:124-198`) on
a stream of already-parsed records (JSON decoding and file I/O are glue
outside the core): classification interleaved with role-merge
accumulation.  A Python error escapes this loop; it is caught only by the
per-file handler, which abandons the rest of the file. -/
def recGo (pack : LangPack) :
    List JVal → List MsgObj → List Char → Nat → Except PyError (List Char × Nat)
  | [], pending, acc, count =>
    match pending with
    | [] => .ok (acc, count)
    | _ :: _ => flushRes (format_merged_messages pack pending) acc count
  | r :: rest, pending, acc, count =>
    match classifyRecord r with
    | .error e => .error e
    | .ok none => recGo pack rest pending acc count
    | .ok (some m) =>
      match pending with
      | [] => recGo pack rest [m] acc count
      | p0 :: _ =>
        if m.role = p0.role then recGo pack rest (pending ++ [m]) acc count
        else
          match flushRes (format_merged_messages pack pending) acc count with
          | .error e => .error e
          | .ok ac => recGo pack rest [m] ac.1 ac.2

/-- `process_jsonl_file`'s record-to-transcript core: transcript text and
emitted-entry count, or the Python error that escaped the loop. -/
def processRecords (pack : LangPack) (records : List JVal) :
    Except PyError (List Char × Nat) :=
  recGo pack records [] [] 0

def isJStr : JVal → Bool
  | .jstr _ => true
  | _ => false

/-- Well-shapedness of one content item for rendering: a `text` item
carries a string (or absent) `text` field, a `tool_result` item a string
(or absent) `content` field; all other items never raise. -/
def goodItem (it : JVal) : Bool :=
  (if dictGet it "type" (jstrS "") = jstrS "text" then
    isJStr (dictGet it "text" (jstrS ""))
  else true)
  && (if dictGet it "type" (jstrS "") = jstrS "tool_result" then
    isJStr (dictGet it "content" (jstrS ""))
  else true)

/-- A timestamp value that `format_timestamp` accepts: a string, or any
falsy value (which short-circuits to the empty string). -/
def tsOk (v : JVal) : Bool := isJStr v || !pyTruthy v

/-- Well-shapedness of one raw record: a mapping whose `message` field (or
its default) is a mapping, whose timestamp is a string or falsy, and whose
content is either a list of well-shaped items or any non-list value. -/
def goodRecord (r : JVal) : Bool :=
  isDict r
  && isDict (dictGet r "message" .jobjNil)
  && tsOk (dictGet r "timestamp" (jstrS ""))
  && (if isArr (dictGet (dictGet r "message" .jobjNil) "content" (jstrS "")) then
        (arrToList (dictGet (dictGet r "message" .jobjNil) "content" (jstrS ""))).all goodItem
      else true)

/-- Witness data: a well-shaped user record with no `role` field. -/
def recMissingRole : JVal :=
  jobjOf [("type", jstrS "user"), ("message", jobjOf [("content", jstrS "hello")])]

/-- Counterexample data: a plain user record saying "hi". -/
def recUserHi : JVal :=
  jobjOf [("type", jstrS "user"),
    ("message", jobjOf [("role", jstrS "user"), ("content", jstrS "hi")]),
    ("timestamp", jstrS "")]

/-- Counterexample data: an assistant record whose tool result carries an
integer `content` — `len(3)` raises `TypeError` when the group is
rendered. -/
def recAsstIntTool : JVal :=
  jobjOf [("type", jstrS "assistant"),
    ("message", jobjOf [("role", jstrS "assistant"),
      ("content", jarrOf [jobjOf [("type", jstrS "tool_result"), ("content", .jnum 3)]])]),
    ("timestamp", jstrS "")]

/-- Counterexample data: a plain user record saying "bye", after the bad
record — per the claim it should still be processed. -/
def recUserBye : JVal :=
  jobjOf [("type", jstrS "user"),
    ("message", jobjOf [("role", jstrS "user"), ("content", jstrS "bye")]),
    ("timestamp", jstrS "")]

/-- Witness data: a classified plain user message saying "hi". -/
def msgUserHi : MsgObj :=
  ⟨jobjOf [("type", jstrS "user"),
     ("message", jobjOf [("role", jstrS "user"), ("content", jstrS "hi")]),
     ("timestamp", jstrS "")],
   jstrS "user", "hi".data, false⟩

/-- Witness data: a classified plain user message saying "there". -/
def msgUserThere : MsgObj :=
  ⟨jobjOf [("type", jstrS "user"),
     ("message", jobjOf [("role", jstrS "user"), ("content", jstrS "there")]),
     ("timestamp", jstrS "")],
   jstrS "user", "there".data, false⟩

/-- Witness data: a classified assistant message carrying one tool result. -/
def msgAsstTool : MsgObj :=
  ⟨jobjOf [("type", jstrS "assistant"),
     ("message", jobjOf [("role", jstrS "assistant"),
       ("content", jarrOf [jobjOf [("type", jstrS "tool_result"), ("content", jstrS "ok")]])]),
     ("timestamp", jstrS "")],
   jstrS "assistant", [], true⟩

/-! ## Filename derivation (`src/main.py:564-668`) -/

/-- Python `str.strip()`: drop leading and trailing whitespace. -/
def pyStrip (l : List Char) : List Char :=
  ((l.dropWhile pyWs).reverse.dropWhile pyWs).reverse

/-- List-prefix test (Python `str.startswith` on explicit prefixes). -/
def isPfx : List Char → List Char → Bool
  | [], _ => true
  | _ :: _, [] => false
  | a :: as, b :: bs => a = b && isPfx as bs

/-- Separator-only line: `re.match(r'^[─=]+$', line)`. -/
def sepOnlyLine (l : List Char) : Bool :=
  !l.isEmpty && l.all (fun c => c = '─' || c = '=')

/-- Icon-start line: `re.match(r'^[👤🤖🔧✅]', line)`. -/
def iconStartLine : List Char → Bool
  | c :: _ => c = '👤' || c = '🤖' || c = '🔧' || c = '✅'
  | [] => false

/-- Timestamp-prefixed line: `re.match(r'^\d{4}-\d{2}-\d{2}T[\d:]+', line)`. -/
def tsStartLine : List Char → Bool
  | y1 :: y2 :: y3 :: y4 :: '-' :: m1 :: m2 :: '-' :: d1 :: d2 :: 'T' :: c :: _ =>
    dateShape y1 y2 y3 y4 m1 m2 d1 d2 && isTsChar c
  | _ => false

/-- Label-prefixed line: `re.match(r'^(参数|Args|Result|结果)', line)` — a
fixed set of prefixes (the zh/en parameter labels and the words
`Result`/`结果`), not the selected pack's labels. -/
def labelStartLine (l : List Char) : Bool :=
  isPfx "参数".data l || isPfx "Args".data l || isPfx "Result".data l || isPfx "结果".data l

/-- `line.strip().startswith('{')`. -/
def braceStartLine (l : List Char) : Bool :=
  match pyStrip l with
  | c :: _ => c = lbrace
  | [] => false

/-- `re.sub(r'^^[#\*\s-]+', '', clean_line)`: drop the leading run of
markers (the doubled anchor is equivalent to a single one). -/
def stripMarkers (l : List Char) : List Char :=
  l.dropWhile (fun c => c = '#' || c = '*' || c = '-' || pyWs c)

/-- One line's treatment by `_extract_meaningful_lines`
(`src/main.py:578-603`): a skipped or non-meaningful line contributes
nothing; a meaningful line contributes its stripped, marker-free form. -/
def lineContribution (l : List Char) : Option (List Char) :=
  if sepOnlyLine l then none
  else if iconStartLine l then none
  else if tsStartLine l then none
  else if labelStartLine l then none
  else if braceStartLine l then none
  else
    if hasNonWs l && decide (3 < (pyStrip l).length) then
      if 0 < (stripMarkers (pyStrip l)).length then some (stripMarkers (pyStrip l)) else none
    else none

/-- The collection loop of `_extract_meaningful_lines`: gather the first
`maxLines` line contributions. -/
def emlGo : List (List Char) → Nat → List (List Char)
  | [], _ => []
  | _, 0 => []
  | l :: rest, n + 1 =>
    match lineContribution l with
    | some cl => cl :: emlGo rest n
    | none => emlGo rest (n + 1)

/-- `_extract_meaningful_lines` (`src/main.py:564-605`).  (For a 0-line
budget the source loop would still collect one line before testing the
break condition, but the function is only ever called with
`max_lines = 2`.) -/
def extract_meaningful_lines (content : List Char) (maxLines : Nat) : List (List Char) :=
  emlGo (splitLines content) maxLines

/-- Python `\w` as used by `_clean_filename_text`: ASCII alphanumerics,
the underscore, and the CJK range `一-龥` the source names
explicitly.  (Python's Unicode `\w` additionally admits other letters and
digits; no claim depends on those.) -/
def isWordChar (c : Char) : Bool :=
  c.isAlphanum || c = '_' || (0x4e00 ≤ c.val && c.val ≤ 0x9fa5)

/-- `_clean_filename_text` (`src/main.py:607-618`): keep only word
characters, CJK ideographs, underscore and hyphen. -/
def clean_filename_text (l : List Char) : List Char :=
  l.filter (fun c => isWordChar c || c = '-')

/-- `len(text.encode('utf-8'))`. -/
def utf8Len (l : List Char) : Nat := (l.map Char.utf8Size).foldr (· + ·) 0

/-- The while loop of `_truncate_filename_bytes` with fuel (the text
length bounds the number of iterations). -/
def truncBytesF : Nat → List Char → Nat → List Char
  | 0, t, _ => t
  | n + 1, t, maxB =>
    if maxB < utf8Len t && !t.isEmpty then truncBytesF n t.dropLast maxB else t

/-- `_truncate_filename_bytes` (`src/main.py:620-634`). -/
def truncate_filename_bytes (t : List Char) (maxB : Nat) : List Char :=
  truncBytesF t.length t maxB

/-- The scan of `original_name.replace('.jsonl', '')` with fuel. -/
def removeJsonlF : Nat → List Char → List Char
  | 0, l => l
  | _ + 1, [] => []
  | n + 1, c :: cs =>
    if isPfx ".jsonl".data (c :: cs) then removeJsonlF n ((c :: cs).drop 6)
    else c :: removeJsonlF n cs

/-- `original_name.replace('.jsonl', '')` (`src/main.py:648`): removes
every non-overlapping, left-to-right occurrence of `.jsonl`, not only a
trailing extension. -/
def removeJsonl (l : List Char) : List Char := removeJsonlF l.length l

/-- `generate_filename` (`src/main.py:636-668`). -/
def generate_filename (content : List Char) (originalName : List Char) : List Char :=
  if truncate_filename_bytes
      (clean_filename_text (joinWith '_' (extract_meaningful_lines content 2)))
      MAX_FILENAME_BYTES = [] then
    removeJsonl originalName ++ ".txt".data
  else
    removeJsonl originalName ++ "_".data
      ++ truncate_filename_bytes
        (clean_filename_text (joinWith '_' (extract_meaningful_lines content 2)))
        MAX_FILENAME_BYTES
      ++ ".txt".data

/-! ## Theorems -/

theorem splitLines_nl (cs : List Char) : splitLines ('\n' :: cs) = [] :: splitLines cs := by
  simp [splitLines]

theorem splitLines_cons_of_ne (c : Char) (cs : List Char) (hc : ¬ c = '\n') :
    splitLines (c :: cs) =
      match splitLines cs with
      | l :: ls => (c :: l) :: ls
      | [] => [[c]] := by
  simp [splitLines, hc]

theorem splitLines_exists_cons (l : List Char) : ∃ x xs, splitLines l = x :: xs := by
  induction l with
  | nil => exact ⟨[], [], rfl⟩
  | cons c cs ih =>
    obtain ⟨x, xs, hx⟩ := ih
    by_cases hc : c = '\n'
    · subst hc
      exact ⟨[], splitLines cs, splitLines_nl cs⟩
    · exact ⟨c :: x, xs, by rw [splitLines_cons_of_ne c cs hc, hx]⟩

theorem joinWith_splitLines (l : List Char) : joinWith '\n' (splitLines l) = l := by
  induction l with
  | nil => rfl
  | cons c cs ih =>
    obtain ⟨x, xs, hx⟩ := splitLines_exists_cons cs
    by_cases hc : c = '\n'
    · subst hc
      rw [splitLines_nl, hx]
      show [] ++ '\n' :: joinWith '\n' (x :: xs) = '\n' :: cs
      rw [← hx, ih]
      rfl
    · rw [splitLines_cons_of_ne c cs hc, hx]
      cases xs with
      | nil =>
        show c :: x = c :: cs
        have h2 : joinWith '\n' (splitLines cs) = cs := ih
        rw [hx] at h2
        simpa using h2
      | cons y ys =>
        show (c :: x) ++ '\n' :: joinWith '\n' (y :: ys) = c :: cs
        have h2 : joinWith '\n' (splitLines cs) = cs := ih
        rw [hx] at h2
        show c :: (x ++ '\n' :: joinWith '\n' (y :: ys)) = c :: cs
        rw [← h2]
        rfl

/-- A string every line of which is already clean is a fixed point of
`clean_content`. -/
theorem clean_content_eq_self_of_fixed (t : List Char)
    (h : ∀ x ∈ splitLines t, cleanLine x = x) : clean_content t = t := by
  unfold clean_content
  by_cases ht : t = []
  · simp [ht]
  · rw [if_neg ht]
    have hmap : (splitLines t).map cleanLine = splitLines t := by
      calc (splitLines t).map cleanLine = (splitLines t).map id :=
            List.map_congr_left h
        _ = splitLines t := List.map_id _
    rw [hmap, joinWith_splitLines]

/-- C1 (amended).  Cleaning is idempotent exactly on strings whose cleaned
form has no line that still begins with a line-number/arrow or bare-arrow
pattern: when every line of `clean_content s` is a fixed point of the
per-line cleaner, `clean_content (clean_content s) = clean_content s`.
(In general a second application can strip a further prefix, so the claim
as stated — idempotence for every string — fails; see the counterexample.) -/
theorem clean_content_idem_on_fixed_lines (s : List Char)
    (h : ∀ x ∈ splitLines (clean_content s), cleanLine x = x) :
    clean_content (clean_content s) = clean_content s :=
  clean_content_eq_self_of_fixed (clean_content s) h

/-- Witness for C1 (amended): a concrete already-clean string. -/
theorem clean_content_idem_witness :
    (∀ x ∈ splitLines (clean_content "  12→code".data), cleanLine x = x) ∧
      clean_content (clean_content "  12→code".data) = clean_content "  12→code".data :=
  ⟨by decide, clean_content_idem_on_fixed_lines "  12→code".data (by decide)⟩

/-- Counterexample to C1 as stated: cleaning `"1→2→x"` gives `"2→x"`, and
cleaning once more strips the newly exposed prefix, giving `"x"`. -/
theorem clean_content_not_idempotent :
    ¬ clean_content (clean_content "1→2→x".data) = clean_content "1→2→x".data := by
  decide

/-! ### Timestamp formatting (C9) -/

theorem takeWhile_append_of_all (p : Char → Bool) (l1 l2 : List Char)
    (h : ∀ c ∈ l1, p c = true) :
    (l1 ++ l2).takeWhile p = l1 ++ l2.takeWhile p := by
  induction l1 with
  | nil => simp
  | cons c cs ih =>
    have hc : p c = true := h c (by simp)
    simp only [List.cons_append, List.takeWhile_cons, hc, if_true]
    rw [ih (fun x hx => h x (by simp [hx]))]

theorem takeWhile_eq_nil_of_head (p : Char → Bool) (l : List Char)
    (h : ∀ c cs, l = c :: cs → p c = false) : l.takeWhile p = [] := by
  cases l with
  | nil => rfl
  | cons c cs => simp [List.takeWhile_cons, h c cs rfl]

theorem fracOf_no_dot (rest : List Char)
    (h : ∀ c cs, rest = c :: cs → ¬ c = '.') : fracOf rest = [] := by
  cases rest with
  | nil => rfl
  | cons c cs => simp [fracOf, h c cs rfl]

theorem tsTail_no_frac (run rest : List Char) (hne : run ≠ [])
    (hrun : ∀ c ∈ run, isTsChar c = true)
    (hrest : ∀ c cs, rest = c :: cs → isTsChar c = false ∧ ¬ c = '.') :
    tsTail (run ++ rest) = some run := by
  have htake : (run ++ rest).takeWhile isTsChar = run := by
    rw [takeWhile_append_of_all isTsChar run rest hrun,
      takeWhile_eq_nil_of_head isTsChar rest (fun c cs h => (hrest c cs h).1)]
    simp
  unfold tsTail
  rw [htake, if_neg hne, List.drop_left,
    fracOf_no_dot rest (fun c cs h => (hrest c cs h).2)]
  simp

theorem tsTail_with_frac (run fd rest : List Char) (hne : run ≠ [])
    (hrun : ∀ c ∈ run, isTsChar c = true)
    (hfd : ∀ c ∈ fd, c.isDigit = true)
    (hrest : ∀ c cs, rest = c :: cs → c.isDigit = false) :
    tsTail (run ++ ('.' :: (fd ++ rest))) = some (run ++ ('.' :: fd)) := by
  have htake : (run ++ ('.' :: (fd ++ rest))).takeWhile isTsChar = run := by
    rw [takeWhile_append_of_all isTsChar run _ hrun]
    simp [List.takeWhile_cons, isTsChar]
  have htake2 : (fd ++ rest).takeWhile Char.isDigit = fd := by
    rw [takeWhile_append_of_all Char.isDigit fd rest hfd,
      takeWhile_eq_nil_of_head Char.isDigit rest hrest]
    simp
  unfold tsTail
  rw [htake, if_neg hne, List.drop_left]
  simp [fracOf, htake2]

/-- C9 (amended).  `format_timestamp` keeps exactly the prefix matched by
the pattern `\d{4}-\d{2}-\d{2}T[\d:]+\.?\d*` — the date part, a non-empty
run of digits/colons (not necessarily a complete `HH:MM:SS`), and an
optional fraction — and drops *everything* after it (a timezone offset, a
`Z` suffix, or any other trailing text); a timestamp not matching this
pattern is passed through unchanged; an empty timestamp yields the empty
string.  (The claim's stricter reading — that only complete
`YYYY-MM-DDTHH:MM:SS` prefixes are reformatted — fails; see the
counterexample.) -/
theorem format_timestamp_spec :
    (format_timestamp [] = []) ∧
    (∀ s, tsCore s = none → format_timestamp s = s) ∧
    (∀ y1 y2 y3 y4 m1 m2 d1 d2 : Char, ∀ run rest : List Char,
      dateShape y1 y2 y3 y4 m1 m2 d1 d2 = true →
      run ≠ [] → (∀ c ∈ run, isTsChar c = true) →
      (∀ c cs, rest = c :: cs → isTsChar c = false ∧ ¬ c = '.') →
      format_timestamp (y1 :: y2 :: y3 :: y4 :: '-' :: m1 :: m2 :: '-' :: d1 :: d2 :: 'T' :: (run ++ rest))
        = [y1, y2, y3, y4, '-', m1, m2, '-', d1, d2, 'T'] ++ run) ∧
    (∀ y1 y2 y3 y4 m1 m2 d1 d2 : Char, ∀ run fd rest : List Char,
      dateShape y1 y2 y3 y4 m1 m2 d1 d2 = true →
      run ≠ [] → (∀ c ∈ run, isTsChar c = true) →
      (∀ c ∈ fd, c.isDigit = true) →
      (∀ c cs, rest = c :: cs → c.isDigit = false) →
      format_timestamp (y1 :: y2 :: y3 :: y4 :: '-' :: m1 :: m2 :: '-' :: d1 :: d2 :: 'T' :: (run ++ ('.' :: (fd ++ rest))))
        = [y1, y2, y3, y4, '-', m1, m2, '-', d1, d2, 'T'] ++ (run ++ ('.' :: fd))) := by
  refine ⟨rfl, ?_, ?_, ?_⟩
  · intro s hs
    unfold format_timestamp
    cases s with
    | nil => rfl
    | cons c cs => simp [hs]
  · intro y1 y2 y3 y4 m1 m2 d1 d2 run rest hd hne hrun hrest
    have hcore : tsCore (y1 :: y2 :: y3 :: y4 :: '-' :: m1 :: m2 :: '-' :: d1 :: d2 :: 'T' :: (run ++ rest))
        = some ([y1, y2, y3, y4, '-', m1, m2, '-', d1, d2, 'T'] ++ run) := by
      show (if dateShape y1 y2 y3 y4 m1 m2 d1 d2 then
          (tsTail (run ++ rest)).map
            (fun t => [y1, y2, y3, y4, '-', m1, m2, '-', d1, d2, 'T'] ++ t)
        else none) = some ([y1, y2, y3, y4, '-', m1, m2, '-', d1, d2, 'T'] ++ run)
      rw [if_pos (by simp [hd]), tsTail_no_frac run rest hne hrun hrest]
      rfl
    unfold format_timestamp
    rw [if_neg (by simp), hcore]
  · intro y1 y2 y3 y4 m1 m2 d1 d2 run fd rest hd hne hrun hfd hrest
    have hcore : tsCore (y1 :: y2 :: y3 :: y4 :: '-' :: m1 :: m2 :: '-' :: d1 :: d2 :: 'T' :: (run ++ ('.' :: (fd ++ rest))))
        = some ([y1, y2, y3, y4, '-', m1, m2, '-', d1, d2, 'T'] ++ (run ++ ('.' :: fd))) := by
      show (if dateShape y1 y2 y3 y4 m1 m2 d1 d2 then
          (tsTail (run ++ ('.' :: (fd ++ rest)))).map
            (fun t => [y1, y2, y3, y4, '-', m1, m2, '-', d1, d2, 'T'] ++ t)
        else none) = some ([y1, y2, y3, y4, '-', m1, m2, '-', d1, d2, 'T'] ++ (run ++ ('.' :: fd)))
      rw [if_pos (by simp [hd]), tsTail_with_frac run fd rest hne hrun hfd hrest]
      rfl
    unfold format_timestamp
    rw [if_neg (by simp), hcore]

/-- Witness for C9 (amended): the spec's own scenario,
`"2025-12-30T02:53:40.140Z"` formats to `"2025-12-30T02:53:40.140"`. -/
theorem format_timestamp_spec_witness :
    format_timestamp "2025-12-30T02:53:40.140Z".data = "2025-12-30T02:53:40.140".data := by
  have h := format_timestamp_spec.2.2.2 '2' '0' '2' '5' '1' '2' '3' '0'
    "02:53:40".data "140".data "Z".data (by decide) (by decide) (by decide) (by decide)
    (by intro c cs h; cases h; decide)
  exact h

/-- Counterexample to C9 as stated: `"2025-12-30T02:53Z"` does not match
the strict `YYYY-MM-DDTHH:MM:SS` pattern named by the claim (no seconds
field), so per the claim it should pass through unchanged — but the code's
looser `[\d:]+` pattern matches and drops the `Z`. -/
theorem format_timestamp_not_strict :
    specIsoStrictShape "2025-12-30T02:53Z".data = false ∧
      ¬ format_timestamp "2025-12-30T02:53Z".data = "2025-12-30T02:53Z".data := by
  constructor
  · decide
  · decide

/-! ### Cleaning algebra shared by the tool-result claims -/

theorem clean_content_eq_cleanCore (t : List Char) : clean_content t = cleanCore t := by
  unfold clean_content cleanCore
  by_cases h : t = []
  · subst h; rfl
  · rw [if_neg h]

theorem splitLines_append_nl (a b : List Char) :
    splitLines (a ++ '\n' :: b) = splitLines a ++ splitLines b := by
  induction a with
  | nil => simp [splitLines_nl, splitLines]
  | cons c cs ih =>
    by_cases hc : c = '\n'
    · subst hc
      rw [List.cons_append, splitLines_nl, splitLines_nl, ih]
      rfl
    · obtain ⟨x, xs, hx⟩ := splitLines_exists_cons cs
      rw [List.cons_append, splitLines_cons_of_ne c _ hc, splitLines_cons_of_ne c cs hc, ih, hx]
      rfl

theorem joinWith_append (sep : Char) (ls1 ls2 : List (List Char))
    (h1 : ls1 ≠ []) (h2 : ls2 ≠ []) :
    joinWith sep (ls1 ++ ls2) = joinWith sep ls1 ++ sep :: joinWith sep ls2 := by
  induction ls1 with
  | nil => exact absurd rfl h1
  | cons l t ih =>
    cases t with
    | nil =>
      cases ls2 with
      | nil => exact absurd rfl h2
      | cons y ys => rfl
    | cons l2 t2 =>
      have := ih (by simp)
      show l ++ sep :: joinWith sep ((l2 :: t2) ++ ls2)
        = (l ++ sep :: joinWith sep (l2 :: t2)) ++ sep :: joinWith sep ls2
      rw [this]
      simp

theorem cleanCore_append_nl (a b : List Char) :
    cleanCore (a ++ '\n' :: b) = cleanCore a ++ '\n' :: cleanCore b := by
  unfold cleanCore
  rw [splitLines_append_nl, List.map_append]
  obtain ⟨x, xs, hx⟩ := splitLines_exists_cons a
  obtain ⟨y, ys, hy⟩ := splitLines_exists_cons b
  exact joinWith_append '\n' _ _ (by rw [hx]; simp) (by rw [hy]; simp)

theorem clean_content_append_nl (a b : List Char) :
    clean_content (a ++ '\n' :: b) = clean_content a ++ '\n' :: clean_content b := by
  rw [clean_content_eq_cleanCore, clean_content_eq_cleanCore a, clean_content_eq_cleanCore b,
    cleanCore_append_nl]

/-- Cleaning distributes over the truncation marker: the marker's own lines
are already clean, so it survives cleaning as a suffix. -/
theorem clean_content_append_marker (t : List Char) :
    clean_content (t ++ truncMarker) = clean_content t ++ truncMarker := by
  have hm : truncMarker = '\n' :: ("... (内容过长，已截断)".data ++ '\n' :: ([] : List Char)) := by
    decide
  rw [hm]
  rw [clean_content_append_nl t ("... (内容过长，已截断)".data ++ '\n' :: [])]
  rw [clean_content_append_nl "... (内容过长，已截断)".data []]
  have h1 : clean_content "... (内容过长，已截断)".data = "... (内容过长，已截断)".data := by decide
  have h2 : clean_content [] = [] := rfl
  rw [h1, h2]

theorem dropWhile_len_le (p : Char → Bool) (l : List Char) :
    (l.dropWhile p).length ≤ l.length := by
  induction l with
  | nil => exact Nat.le_refl _
  | cons c cs ih =>
    rw [List.dropWhile_cons]
    by_cases hc : p c
    · simp only [hc, if_true]
      calc (cs.dropWhile p).length ≤ cs.length := ih
        _ ≤ (c :: cs).length := by simp
    · simp [hc]

theorem stripNumArrow_length_le (l : List Char) : (stripNumArrow l).length ≤ l.length := by
  unfold stripNumArrow
  simp only []
  split
  · exact Nat.le_refl _
  · split
    · next c rest heq =>
      split
      · have h1 : (l.dropWhile pyWs).length ≤ l.length := dropWhile_len_le pyWs l
        have h2 : (((l.dropWhile pyWs).drop ((l.dropWhile pyWs).takeWhile Char.isDigit).length).dropWhile pyWs).length
            ≤ (l.dropWhile pyWs).length := by
          calc _ ≤ ((l.dropWhile pyWs).drop ((l.dropWhile pyWs).takeWhile Char.isDigit).length).length :=
                dropWhile_len_le _ _
            _ ≤ (l.dropWhile pyWs).length := by rw [List.length_drop]; omega
        rw [heq] at h2
        simp at h2
        omega
      · exact Nat.le_refl _
    · exact Nat.le_refl _

theorem stripBareArrow_length_le (l : List Char) : (stripBareArrow l).length ≤ l.length := by
  cases l with
  | nil => exact Nat.le_refl _
  | cons c rest =>
    by_cases hc : c = '→'
    · simp only [stripBareArrow, if_pos hc]
      calc (rest.dropWhile pyWs).length ≤ rest.length := dropWhile_len_le pyWs rest
        _ ≤ (c :: rest).length := by simp
    · simp [stripBareArrow, hc]

theorem cleanLine_length_le (l : List Char) : (cleanLine l).length ≤ l.length :=
  Nat.le_trans (stripBareArrow_length_le (stripNumArrow l)) (stripNumArrow_length_le l)

theorem joinWith_map_cleanLine_length_le (ls : List (List Char)) :
    (joinWith '\n' (ls.map cleanLine)).length ≤ (joinWith '\n' ls).length := by
  induction ls with
  | nil => exact Nat.le_refl _
  | cons l t ih =>
    cases t with
    | nil => exact cleanLine_length_le l
    | cons l2 t2 =>
      show ((cleanLine l) ++ '\n' :: joinWith '\n' ((l2 :: t2).map cleanLine)).length
        ≤ (l ++ '\n' :: joinWith '\n' (l2 :: t2)).length
      have h1 := cleanLine_length_le l
      have h2 := ih
      simp only [List.length_append, List.length_cons]
      omega

/-- Cleaning never lengthens a string. -/
theorem clean_content_length_le (t : List Char) : (clean_content t).length ≤ t.length := by
  rw [clean_content_eq_cleanCore]
  unfold cleanCore
  calc (joinWith '\n' ((splitLines t).map cleanLine)).length
      ≤ (joinWith '\n' (splitLines t)).length := joinWith_map_cleanLine_length_le _
    _ = t.length := by rw [joinWith_splitLines]

theorem splitLines_of_no_nl (l : List Char) (h : ∀ c ∈ l, ¬ c = '\n') :
    splitLines l = [l] := by
  induction l with
  | nil => rfl
  | cons c cs ih =>
    rw [splitLines_cons_of_ne c cs (h c (by simp)), ih (fun x hx => h x (by simp [hx]))]

theorem cleanLine_cons_of_plain (c : Char) (cs : List Char)
    (hws : pyWs c = false) (hd : c.isDigit = false) (ha : ¬ c = '→') :
    cleanLine (c :: cs) = c :: cs := by
  have h1 : stripNumArrow (c :: cs) = c :: cs := by
    unfold stripNumArrow
    simp [List.dropWhile_cons, hws, List.takeWhile_cons, hd]
  rw [cleanLine, h1]
  unfold stripBareArrow
  simp [ha]

theorem clean_content_replicate_plain (n : Nat) (a : Char)
    (hws : pyWs a = false) (hd : a.isDigit = false) (ha : ¬ a = '→') (hnl : ¬ a = '\n') :
    clean_content (List.replicate n a) = List.replicate n a := by
  rw [clean_content_eq_cleanCore]
  unfold cleanCore
  rw [splitLines_of_no_nl _ (fun c hc => by rw [List.eq_of_mem_replicate hc]; exact hnl)]
  cases n with
  | zero => rfl
  | succ k =>
    rw [List.replicate_succ]
    show joinWith '\n' [cleanLine (a :: List.replicate k a)] = a :: List.replicate k a
    rw [cleanLine_cons_of_plain a _ hws hd ha]
    rfl

/-! ### Tool-result truncation (C2, C5) -/

/-- The tool-result renderer on an over-long string content, fully unfolded:
truncate the raw content at the cap, append the fixed marker, then clean. -/
theorem processToolResultItem_long (pack : LangPack) (c : List Char)
    (h : MAX_RESULT_LENGTH < c.length) :
    processToolResultItem pack (jobjOf [("content", .jstr c)])
      = .ok ("\n".data ++ pack.result.data ++ "\n\n".data
          ++ clean_content (c.take MAX_RESULT_LENGTH ++ truncMarker) ++ "\n".data) := by
  unfold processToolResultItem
  have hget : pyGetE (jobjOf [("content", .jstr c)]) "content" (jstrS "") = .ok (.jstr c) := rfl
  rw [hget]
  show (if MAX_RESULT_LENGTH < c.length then
      (Except.ok ("\n".data ++ pack.result.data ++ "\n\n".data
        ++ clean_content (c.take MAX_RESULT_LENGTH ++ truncMarker) ++ "\n".data) : Except PyError (List Char))
    else
      Except.ok ("\n".data ++ pack.result.data ++ "\n\n".data ++ cleanContentV (.jstr c) ++ "\n".data)) = _
  rw [if_pos h]

/-- C2 (amended).  For every language pack and every over-long string
content, the appended truncation marker is the fixed constant
`truncMarker` — a hardcoded Chinese string — not a label drawn from the
selected pack (the packs contain no marker field at all); only the result
label varies with the pack. -/
theorem trunc_marker_not_from_pack (pack : LangPack) (c : List Char)
    (h : MAX_RESULT_LENGTH < c.length) :
    processToolResultItem pack (jobjOf [("content", .jstr c)])
      = .ok ("\n".data ++ pack.result.data ++ "\n\n".data
          ++ (clean_content (c.take MAX_RESULT_LENGTH) ++ truncMarker) ++ "\n".data) := by
  rw [processToolResultItem_long pack c h, clean_content_append_marker]

/-- Witness for C2 (amended): a concrete over-long content under the
Japanese pack still gets the fixed Chinese marker. -/
theorem trunc_marker_not_from_pack_witness :
    MAX_RESULT_LENGTH < (List.replicate 5001 'b').length ∧
      processToolResultItem packJa (jobjOf [("content", .jstr (List.replicate 5001 'b'))])
        = .ok ("\n".data ++ packJa.result.data ++ "\n\n".data
            ++ (clean_content ((List.replicate 5001 'b').take MAX_RESULT_LENGTH) ++ truncMarker) ++ "\n".data) :=
  ⟨by rw [List.length_replicate]; decide,
   trunc_marker_not_from_pack packJa _ (by rw [List.length_replicate]; decide)⟩

/-- Counterexample to C2 as stated: with English selected, a 5001-character
result renders with the marker `"... (内容过长，已截断)"` — the very same
Chinese constant used for every other language — which is not one of the
five labels of the English pack. -/
theorem trunc_marker_not_localized :
    processToolResultItem (selectLang "en") (jobjOf [("content", .jstr (List.replicate 5001 'a'))])
      = .ok ("\n".data ++ packEn.result.data ++ "\n\n".data
          ++ (List.replicate 5000 'a' ++ truncMarker) ++ "\n".data)
    ∧ processToolResultItem (selectLang "ja") (jobjOf [("content", .jstr (List.replicate 5001 'a'))])
      = .ok ("\n".data ++ packJa.result.data ++ "\n\n".data
          ++ (List.replicate 5000 'a' ++ truncMarker) ++ "\n".data)
    ∧ truncMarker = "\n... (内容过长，已截断)\n".data
    ∧ truncMarker ≠ packEn.user.data ∧ truncMarker ≠ packEn.assistant.data
    ∧ truncMarker ≠ packEn.tool.data ∧ truncMarker ≠ packEn.result.data
    ∧ truncMarker ≠ packEn.param.data := by
  have hlen : MAX_RESULT_LENGTH < (List.replicate 5001 'a').length := by
    rw [List.length_replicate]; decide
  have htake : (List.replicate 5001 'a').take MAX_RESULT_LENGTH = List.replicate 5000 'a' := by
    rw [List.take_replicate]; rfl
  have hclean : clean_content (List.replicate 5000 'a') = List.replicate 5000 'a' :=
    clean_content_replicate_plain 5000 'a' (by decide) (by decide) (by decide) (by decide)
  refine ⟨?_, ?_, by decide, by decide, by decide, by decide, by decide, by decide⟩
  · rw [show selectLang "en" = packEn from by decide,
      processToolResultItem_long packEn _ hlen, clean_content_append_marker, htake, hclean]
  · rw [show selectLang "ja" = packJa from by decide,
      processToolResultItem_long packJa _ hlen, clean_content_append_marker, htake, hclean]

/-- C5.  For every pack and every string content longer than the cap, the
renderer truncates the raw content to exactly `MAX_RESULT_LENGTH` (5000)
units, appends the marker, and only then cleans (cap-then-clean ordering);
the cleaned body still ends with the marker, and its length is at most
5000 plus the marker length. -/
theorem tool_result_cap_then_clean (pack : LangPack) (c : List Char)
    (h : MAX_RESULT_LENGTH < c.length) :
    processToolResultItem pack (jobjOf [("content", .jstr c)])
      = .ok ("\n".data ++ pack.result.data ++ "\n\n".data
          ++ clean_content (c.take MAX_RESULT_LENGTH ++ truncMarker) ++ "\n".data)
    ∧ (c.take MAX_RESULT_LENGTH).length = MAX_RESULT_LENGTH
    ∧ clean_content (c.take MAX_RESULT_LENGTH ++ truncMarker)
        = clean_content (c.take MAX_RESULT_LENGTH) ++ truncMarker
    ∧ (clean_content (c.take MAX_RESULT_LENGTH ++ truncMarker)).length
        ≤ MAX_RESULT_LENGTH + truncMarker.length := by
  refine ⟨processToolResultItem_long pack c h, ?_, clean_content_append_marker _, ?_⟩
  · rw [List.length_take]; omega
  · rw [clean_content_append_marker, List.length_append]
    have h1 := clean_content_length_le (c.take MAX_RESULT_LENGTH)
    have h2 : (c.take MAX_RESULT_LENGTH).length = MAX_RESULT_LENGTH := by
      rw [List.length_take]; omega
    omega

/-- Witness for C5: a 5001-character content is capped at exactly 5000
units. -/
theorem tool_result_cap_then_clean_witness :
    MAX_RESULT_LENGTH < (List.replicate 5001 'x').length ∧
      ((List.replicate 5001 'x').take MAX_RESULT_LENGTH).length = MAX_RESULT_LENGTH :=
  ⟨by rw [List.length_replicate]; decide,
   (tool_result_cap_then_clean (selectLang "zh") _ (by rw [List.length_replicate]; decide)).2.1⟩

/-! ### Tool detection (C6) -/

theorem arrToList_jarrOf (xs : List JVal) : arrToList (jarrOf xs) = xs := by
  induction xs with
  | nil => rfl
  | cons v vs ih => simp [jarrOf, arrToList, ih]

theorem analyzeItems_flag (xs : List JVal) :
    (analyzeItems xs).2 = xs.any specToolItem := by
  induction xs with
  | nil => rfl
  | cons it rest ih =>
    by_cases hd : isDict it
    · simp [analyzeItems, hd, specToolItem, ih, Bool.or_assoc]
    · simp [analyzeItems, hd, specToolItem, ih]

/-- C6.  For a list-shaped content payload, the analyzer's `has_tools`
flag is true iff the list contains at least one item of type `tool_use`
or `tool_result`; it is false for an empty list and for a string
payload. -/
theorem hasTools_iff_tool_item (xs : List JVal) (s : List Char) :
    ((analyze_content (jarrOf xs)).hasTools = true ↔ ∃ it ∈ xs, specToolItem it = true)
    ∧ (analyze_content (jarrOf [])).hasTools = false
    ∧ (analyze_content (.jstr s)).hasTools = false := by
  refine ⟨?_, rfl, rfl⟩
  have harr : analyze_content (jarrOf xs)
      = ⟨joinWith '\n' (analyzeItems xs).1, (analyzeItems xs).2⟩ := by
    cases xs with
    | nil => rfl
    | cons v vs => simp [analyze_content, jarrOf, isArr, arrToList, arrToList_jarrOf]
  rw [harr]
  show (analyzeItems xs).2 = true ↔ _
  rw [analyzeItems_flag]
  simp [List.any_eq_true]

/-! ### Merge-engine machinery (C4, C10) -/

theorem ok_bind {α β : Type} (a : α) (k : α → Except PyError β) :
    (Except.ok a >>= k) = k a := rfl

theorem error_bind {α β : Type} (e : PyError) (k : α → Except PyError β) :
    ((Except.error e : Except PyError α) >>= k) = .error e := rfl

theorem headerE_shape (pack : LangPack) (m : MsgObj) (h : List Char)
    (he : headerE pack m = .ok h) : ∃ ft, h = formatHeader pack m.role ft := by
  unfold headerE at he
  cases hts : pyGetE m.data "timestamp" (jstrS "") with
  | error e => rw [hts, error_bind] at he; cases he
  | ok ts =>
    rw [hts, ok_bind] at he
    cases hft : formatTimestampE ts with
    | error e => rw [hft, error_bind] at he; cases he
    | ok ft =>
      rw [hft, ok_bind] at he
      exact ⟨ft, by cases he; rfl⟩

theorem formatHeader_ne_nil (pack : LangPack) (role : JVal) (ft : List Char) :
    formatHeader pack role ft ≠ [] := by
  unfold formatHeader
  simp

theorem fmmBody_ok (pack : LangPack) (ms : List MsgObj)
    (h : ∀ m ∈ ms, wellRendered pack m = true) :
    ∀ prev, ∃ b, fmmBody pack prev ms = .ok b := by
  induction ms with
  | nil => exact fun _ => ⟨[], rfl⟩
  | cons m rest ih =>
    intro prev
    obtain ⟨br, hbr⟩ := ih (fun x hx => h x (by simp [hx])) (some m.has_tools)
    have hm := h m (by simp)
    unfold wellRendered at hm
    by_cases ht : m.has_tools
    · cases hef : extract_message pack m.data with
      | error e => rw [hef] at hm; simp at hm
      | ok f =>
        refine ⟨(sepOfPrev prev ++ toolContrib f) ++ br, ?_⟩
        unfold fmmBody
        rw [hef, hbr]
        unfold fmmStep
        rw [if_pos ht]
    · refine ⟨m.text ++ br, ?_⟩
      unfold fmmBody
      rw [hbr]
      unfold fmmStep
      rw [if_neg ht]

theorem fmm_ok_ne (pack : LangPack) (p0 : MsgObj) (ps : List MsgObj)
    (h : ∀ m ∈ p0 :: ps, wellRendered pack m = true) :
    ∃ f, format_merged_messages pack (p0 :: ps) = .ok f ∧ f ≠ [] := by
  have h0 := h p0 (by simp)
  unfold wellRendered at h0
  cases hh : headerE pack p0 with
  | error e => rw [hh] at h0; simp at h0
  | ok hd =>
    obtain ⟨bb, hbb⟩ := fmmBody_ok pack (p0 :: ps) h none
    refine ⟨hd ++ bb ++ "\n\n".data, ?_, ?_⟩
    · show (headerE pack p0 >>= _) = _
      rw [hh, ok_bind, hbb, ok_bind]
      rfl
    · obtain ⟨ft, hft⟩ := headerE_shape pack p0 hd hh
      subst hft
      have := formatHeader_ne_nil pack p0.role ft
      intro hcon
      rcases List.append_eq_nil.mp hcon with ⟨h1, _⟩
      rcases List.append_eq_nil.mp h1 with ⟨h2, _⟩
      exact this h2

theorem runsOf_mem (msgs : List MsgObj) :
    ∀ r ∈ runsOf msgs, r ≠ [] ∧ ∀ m ∈ r, m ∈ msgs := by
  induction msgs with
  | nil => intro r hr; cases hr
  | cons m t ih =>
    intro r hr
    show r ≠ [] ∧ ∀ x ∈ r, x ∈ m :: t
    rw [show runsOf (m :: t) = runsStep m (runsOf t) from rfl] at hr
    cases hrt : runsOf t with
    | nil =>
      rw [hrt] at hr
      have : r = [m] := by simpa [runsStep] using hr
      subst this
      exact ⟨by simp, by intro x hx; simp at hx; simp [hx]⟩
    | cons r0 rs =>
      rw [hrt] at hr
      cases r0 with
      | nil =>
        have : r = [m] := by simpa [runsStep] using hr
        subst this
        exact ⟨by simp, by intro x hx; simp at hx; simp [hx]⟩
      | cons x xs =>
        by_cases hrole : m.role = x.role
        · rw [show runsStep m ((x :: xs) :: rs) = (m :: x :: xs) :: rs from by
            simp [runsStep, hrole]] at hr
          cases hr with
          | head =>
            refine ⟨by simp, ?_⟩
            intro y hy
            rcases List.mem_cons.mp hy with h1 | h2
            · simp [h1]
            · have := (ih (x :: xs) (by rw [hrt]; simp)).2 y h2
              simp [this]
          | tail _ htail =>
            have := ih r (by rw [hrt]; exact List.mem_cons_of_mem _ htail)
            exact ⟨this.1, fun y hy => by have := this.2 y hy; simp [this]⟩
        · rw [show runsStep m ((x :: xs) :: rs) = [m] :: (x :: xs) :: rs from by
            simp [runsStep, hrole]] at hr
          cases hr with
          | head =>
            exact ⟨by simp, by intro y hy; simp at hy; simp [hy]⟩
          | tail _ htail =>
            have := ih r (by rw [hrt]; exact htail)
            exact ⟨this.1, fun y hy => by have := this.2 y hy; simp [this]⟩

theorem emptyFlushCount_zero (pack : LangPack) (msgs : List MsgObj)
    (h : ∀ m ∈ msgs, wellRendered pack m = true) :
    emptyFlushCount pack msgs = 0 := by
  unfold emptyFlushCount
  rw [List.length_eq_zero, List.filter_eq_nil_iff]
  intro r hr
  obtain ⟨hne, hmem⟩ := runsOf_mem msgs r hr
  cases r with
  | nil => exact absurd rfl hne
  | cons p0 ps =>
    obtain ⟨f, hf, hfne⟩ := fmm_ok_ne pack p0 ps (fun m hm => h m (hmem m hm))
    rw [hf]
    cases f with
    | nil => exact absurd rfl hfne
    | cons c cs => simp

theorem mergeGo_count (pack : LangPack) (rest : List MsgObj) :
    ∀ (p0 : MsgObj) (ps : List MsgObj) (acc : List Char) (count : Nat),
      (∀ m ∈ p0 :: (ps ++ rest), wellRendered pack m = true) →
      ∃ text, mergeGo pack rest (p0 :: ps) acc count
        = .ok (text, count + runCount (p0.role :: rest.map MsgObj.role)) := by
  induction rest with
  | nil =>
    intro p0 ps acc count h
    obtain ⟨f, hf, hfne⟩ := fmm_ok_ne pack p0 ps (fun m hm => h m (by
      rcases List.mem_cons.mp hm with h1 | h2
      · simp [h1]
      · simp [h2]))
    refine ⟨acc ++ f, ?_⟩
    show flushRes (format_merged_messages pack (p0 :: ps)) acc count = _
    rw [hf]
    show (if f = [] then (Except.ok (acc, count) : Except PyError (List Char × Nat))
      else Except.ok (acc ++ f, count + 1)) = _
    rw [if_neg hfne]
    rfl
  | cons m t ih =>
    intro p0 ps acc count h
    by_cases hrole : m.role = p0.role
    · obtain ⟨text, htext⟩ := ih p0 (ps ++ [m]) acc count (by
        intro x hx
        apply h
        rcases List.mem_cons.mp hx with h1 | h2
        · simp [h1]
        · simp at h2
          rcases h2 with h3 | h3 | h3 <;> simp [h3])
      refine ⟨text, ?_⟩
      show (if m.role = p0.role then mergeGo pack t ((p0 :: ps) ++ [m]) acc count
        else
          match flushRes (format_merged_messages pack (p0 :: ps)) acc count with
          | Except.error e => Except.error e
          | Except.ok ac => mergeGo pack t [m] ac.1 ac.2) = _
      rw [if_pos hrole]
      have htext2 : mergeGo pack t ((p0 :: ps) ++ [m]) acc count
          = .ok (text, count + runCount (p0.role :: t.map MsgObj.role)) := htext
      rw [htext2]
      have hrc : runCount (p0.role :: (m :: t).map MsgObj.role)
          = runCount (p0.role :: t.map MsgObj.role) := by
        rw [List.map_cons]
        show (if p0.role = m.role then 0 else 1) + runCount (m.role :: t.map MsgObj.role) = _
        rw [if_pos hrole.symm, hrole]
        omega
      rw [hrc]
    · obtain ⟨f, hf, hfne⟩ := fmm_ok_ne pack p0 ps (fun x hx => h x (by
        rcases List.mem_cons.mp hx with h1 | h2
        · simp [h1]
        · simp [h2]))
      obtain ⟨text, htext⟩ := ih m [] (acc ++ f) (count + 1) (by
        intro x hx
        apply h
        rcases List.mem_cons.mp hx with h1 | h2
        · simp [h1]
        · simp at h2; simp [h2])
      refine ⟨text, ?_⟩
      show (if m.role = p0.role then mergeGo pack t ((p0 :: ps) ++ [m]) acc count
        else
          match flushRes (format_merged_messages pack (p0 :: ps)) acc count with
          | Except.error e => Except.error e
          | Except.ok ac => mergeGo pack t [m] ac.1 ac.2) = _
      rw [if_neg hrole, hf]
      show (match (if f = [] then (Except.ok (acc, count) : Except PyError (List Char × Nat))
          else Except.ok (acc ++ f, count + 1)) with
        | Except.error e => Except.error e
        | Except.ok ac => mergeGo pack t [m] ac.1 ac.2) = _
      rw [if_neg hfne]
      show mergeGo pack t [m] (acc ++ f) (count + 1) = _
      rw [htext]
      have hrc : runCount (p0.role :: (m :: t).map MsgObj.role)
          = 1 + runCount (m.role :: t.map MsgObj.role) := by
        rw [List.map_cons]
        show (if p0.role = m.role then 0 else 1) + runCount (m.role :: t.map MsgObj.role) = _
        rw [if_neg (fun e => hrole e.symm)]
      rw [hrc]
      have harith : count + 1 + runCount (m.role :: t.map MsgObj.role)
          = count + (1 + runCount (m.role :: t.map MsgObj.role)) := by omega
      rw [harith]

/-- C4.  Fed a sequence of renderable Classified Messages, the Merge
Engine emits exactly `runCount` (the number of maximal runs of equal
consecutive roles) minus the number of runs whose rendered entry text is
fully empty, transcript entries; an empty-rendering flush contributes
nothing and is not counted (with this renderer a non-empty group always
renders a header, so the subtracted term is in fact zero). -/
theorem merge_entry_count (pack : LangPack) (msgs : List MsgObj)
    (h : ∀ m ∈ msgs, wellRendered pack m = true) :
    ∃ text, mergeLoop pack msgs
      = .ok (text, runCount (msgs.map MsgObj.role) - emptyFlushCount pack msgs) := by
  rw [emptyFlushCount_zero pack msgs h, Nat.sub_zero]
  cases msgs with
  | nil => exact ⟨[], rfl⟩
  | cons m t =>
    obtain ⟨text, htext⟩ := mergeGo_count pack t m [] [] 0 (by
      intro x hx
      apply h
      simpa using hx)
    refine ⟨text, ?_⟩
    show mergeGo pack (m :: t) [] [] 0 = _
    have hstep : mergeGo pack (m :: t) [] [] 0 = mergeGo pack t [m] [] 0 := rfl
    rw [hstep, htext, List.map_cons, Nat.zero_add]

/-! ### Group rendering of a tool member (C10) -/

theorem splitLines_length_append_nl (a b : List Char) :
    (splitLines (a ++ '\n' :: b)).length = (splitLines a).length + (splitLines b).length := by
  rw [splitLines_append_nl, List.length_append]

theorem splitLines_length_pos (l : List Char) : 1 ≤ (splitLines l).length := by
  obtain ⟨x, xs, hx⟩ := splitLines_exists_cons l
  rw [hx]
  simp

theorem extract_message_shape (pack : LangPack) (data : JVal) (f : List Char)
    (h : extract_message pack data = .ok f) :
    f = [] ∨ ∃ (role : JVal) (ft co : List Char),
      f = formatHeader pack role ft ++ co ++ "\n\n".data := by
  unfold extract_message at h
  split at h
  · cases h
  · split at h
    · cases h
    · split at h
      · cases h
      · split at h
        · split at h
          · cases h
          · split at h
            · cases h
            · split at h
              · cases h; exact Or.inl rfl
              · split at h
                · cases h
                · split at h
                  · cases h
                  · split at h
                    · exact Or.inr ⟨_, _, _, (Except.ok.inj h).symm⟩
                    · cases h; exact Or.inl rfl
        · cases h; exact Or.inl rfl

/-- A non-empty full rendering always splits into at least seven lines
(blank line, two separators, role line, at least one content line, two
trailing blanks), so more than five. -/
theorem extract_lines_gt_five (pack : LangPack) (data : JVal) (f : List Char)
    (hf : extract_message pack data = .ok f) (hne : f ≠ []) :
    5 < (splitLines f).length := by
  rcases extract_message_shape pack data f hf with h0 | ⟨role, ft, co, hsh⟩
  · exact absurd h0 hne
  · subst hsh
    have hform : formatHeader pack role ft ++ co ++ "\n\n".data
        = '\n' :: (sepLine ++ '\n' ::
            (((if role = jstrS "user" then pack.user.data else pack.assistant.data)
              ++ " | ".data ++ ft) ++ '\n' :: (sepLine ++ '\n' :: (co ++ '\n' :: ('\n' :: []))))) := by
      unfold formatHeader
      simp [List.append_assoc]
    rw [hform, splitLines_nl, List.length_cons, splitLines_length_append_nl,
      splitLines_length_append_nl, splitLines_length_append_nl, splitLines_length_append_nl]
    have p1 := splitLines_length_pos sepLine
    have p2 := splitLines_length_pos
      ((if role = jstrS "user" then pack.user.data else pack.assistant.data) ++ " | ".data ++ ft)
    have p3 := splitLines_length_pos co
    have p4 : (splitLines ('\n' :: ([] : List Char))).length = 2 := rfl
    omega

theorem toolContrib_eq (f : List Char) :
    toolContrib f
      = if 5 < (splitLines f).length then joinWith '\n' ((splitLines f).drop 5) else [] := by
  unfold toolContrib
  by_cases hf : f = []
  · subst hf
    simp [splitLines]
  · rw [if_neg hf]

/-- C10.  When a group is rendered, a tool-bearing member's contribution
is its full re-rendered message body with exactly its first five
newline-split lines removed; a rendering of five or fewer lines (which
for this renderer means the empty rendering) is silently omitted.  The
first conjunct shows a non-empty full rendering always has more than five
lines (so the "omitted" branch fires only for empty renderings); the
second exhibits the drop-five contribution inside the group entry. -/
theorem tool_member_drops_five_lines (pack : LangPack) (m : MsgObj)
    (hm : m.has_tools = true) :
    (∀ f, extract_message pack m.data = .ok f → f ≠ [] → 5 < (splitLines f).length) ∧
    (∀ h f, headerE pack m = .ok h → extract_message pack m.data = .ok f →
      format_merged_messages pack [m]
        = .ok (h ++ (if 5 < (splitLines f).length then joinWith '\n' ((splitLines f).drop 5)
            else []) ++ "\n\n".data)) := by
  constructor
  · exact fun f hf hne => extract_lines_gt_five pack m.data f hf hne
  · intro h f hh hf
    show (headerE pack m >>= _) = _
    rw [hh, ok_bind]
    have hb : fmmBody pack none [m]
        = fmmStep none m (extract_message pack m.data) (.ok []) := rfl
    rw [hb, hf]
    unfold fmmStep
    rw [if_pos hm]
    show (Except.ok ((sepOfPrev none ++ toolContrib f) ++ []) >>= _) = _
    rw [ok_bind]
    show Except.ok (h ++ ((sepOfPrev none ++ toolContrib f) ++ []) ++ "\n\n".data) = _
    rw [toolContrib_eq]
    simp [sepOfPrev]

/-- Witness for C10: a concrete tool-result message rendered as a
singleton group. -/
theorem tool_member_drops_five_lines_witness :
    msgAsstTool.has_tools = true ∧
      format_merged_messages packZh [msgAsstTool]
        = .ok (((headerE packZh msgAsstTool).toOption.getD [])
            ++ (if 5 < (splitLines ((extract_message packZh msgAsstTool.data).toOption.getD [])).length
              then joinWith '\n'
                ((splitLines ((extract_message packZh msgAsstTool.data).toOption.getD [])).drop 5)
              else [])
            ++ "\n\n".data) :=
  ⟨rfl, (tool_member_drops_five_lines packZh msgAsstTool rfl).2
    ((headerE packZh msgAsstTool).toOption.getD [])
    ((extract_message packZh msgAsstTool.data).toOption.getD []) rfl rfl⟩

/-- Witness for C4: two consecutive user texts then one assistant tool
message; every member is renderable. -/
theorem merge_entry_count_witness :
    (∀ m ∈ [msgUserHi, msgUserThere, msgAsstTool], wellRendered packZh m = true) ∧
      ∃ text, mergeLoop packZh [msgUserHi, msgUserThere, msgAsstTool]
        = .ok (text, runCount ([msgUserHi, msgUserThere, msgAsstTool].map MsgObj.role)
            - emptyFlushCount packZh [msgUserHi, msgUserThere, msgAsstTool]) :=
  ⟨by decide, merge_entry_count packZh _ (by decide)⟩

/-! ### Defensive handling of malformed records (C3) -/

theorem pyGetE_dict (v : JVal) (k : String) (d : JVal) (hd : isDict v = true) :
    pyGetE v k d = .ok (dictGet v k d) := by
  simp [pyGetE, hd]

theorem processToolUseItem_ok (pack : LangPack) (item : JVal) (isFirst : Bool)
    (hd : isDict item = true) :
    ∃ out, processToolUseItem pack item isFirst = .ok out := by
  by_cases hin : pyTruthy (dictGet item "input" .jnull)
  · exact ⟨_, by
      simp only [processToolUseItem, pyGetE_dict item "name" (jstrS "") hd,
        pyGetE_dict item "input" .jnull hd, hin, if_true]
      rfl⟩
  · exact ⟨_, by
      simp only [processToolUseItem, pyGetE_dict item "name" (jstrS "") hd,
        pyGetE_dict item "input" .jnull hd, hin, if_false,
        Bool.false_eq_true, ite_false]
      rfl⟩

theorem processTextItem_ok (item : JVal) (hd : isDict item = true)
    (hs : isJStr (dictGet item "text" (jstrS "")) = true) :
    ∃ out, processTextItem item = .ok out := by
  cases htv : dictGet item "text" (jstrS "") with
  | jstr s =>
    by_cases hw : hasNonWs s
    · exact ⟨(clean_content s, true), by
        simp only [processTextItem, pyGetE_dict item "text" (jstrS "") hd, htv, hw, if_true]⟩
    · exact ⟨([], false), by
        simp only [processTextItem, pyGetE_dict item "text" (jstrS "") hd, htv]
        simp [hw]⟩
  | jnull => rw [htv] at hs; cases hs
  | jbool b => rw [htv] at hs; cases hs
  | jnum n => rw [htv] at hs; cases hs
  | jarrNil => rw [htv] at hs; cases hs
  | jarrCons h t => rw [htv] at hs; cases hs
  | jobjNil => rw [htv] at hs; cases hs
  | jobjCons k v t => rw [htv] at hs; cases hs

theorem processToolResultItem_ok (pack : LangPack) (item : JVal) (hd : isDict item = true)
    (hs : isJStr (dictGet item "content" (jstrS "")) = true) :
    ∃ out, processToolResultItem pack item = .ok out := by
  cases hrc : dictGet item "content" (jstrS "") with
  | jstr s =>
    by_cases hlen : MAX_RESULT_LENGTH < s.length
    · exact ⟨_, by
        simp only [processToolResultItem, pyGetE_dict item "content" (jstrS "") hd, hrc,
          pyLen, hlen, if_true]
        rfl⟩
    · exact ⟨_, by
        simp only [processToolResultItem, pyGetE_dict item "content" (jstrS "") hd, hrc, pyLen]
        simp [hlen]
        rfl⟩
  | jnull => rw [hrc] at hs; cases hs
  | jbool b => rw [hrc] at hs; cases hs
  | jnum n => rw [hrc] at hs; cases hs
  | jarrNil => rw [hrc] at hs; cases hs
  | jarrCons h t => rw [hrc] at hs; cases hs
  | jobjNil => rw [hrc] at hs; cases hs
  | jobjCons k v t => rw [hrc] at hs; cases hs

theorem pclGo_cons (pack : LangPack) (it : JVal) (rest : List JVal) (isFirst : Bool) :
    pclGo pack (it :: rest) isFirst =
      (if isDict it then
        if dictGet it "type" (jstrS "") = jstrS "thinking" then pclGo pack rest isFirst
        else if dictGet it "type" (jstrS "") = jstrS "text" then
          match processTextItem it with
          | .error e => .error e
          | .ok fh =>
            if fh.2 then
              match pclGo pack rest true with
              | .error e => .error e
              | .ok r => .ok (fh.1 :: r)
            else pclGo pack rest isFirst
        else if dictGet it "type" (jstrS "") = jstrS "tool_use" then
          match processToolUseItem pack it isFirst with
          | .error e => .error e
          | .ok f =>
            match pclGo pack rest false with
            | .error e => .error e
            | .ok r => .ok (f :: r)
        else if dictGet it "type" (jstrS "") = jstrS "tool_result" then
          match processToolResultItem pack it with
          | .error e => .error e
          | .ok f =>
            match pclGo pack rest isFirst with
            | .error e => .error e
            | .ok r => .ok (f :: r)
        else pclGo pack rest isFirst
      else pclGo pack rest isFirst) := rfl

theorem pclGo_ok (pack : LangPack) (items : List JVal)
    (h : ∀ it ∈ items, goodItem it = true) :
    ∀ isFirst, ∃ ps, pclGo pack items isFirst = .ok ps := by
  induction items with
  | nil => exact fun _ => ⟨[], rfl⟩
  | cons it rest ih =>
    intro isFirst
    have hrest := ih (fun x hx => h x (by simp [hx]))
    have hit := h it (by simp)
    rw [pclGo_cons]
    by_cases hd : isDict it
    · rw [if_pos hd]
      by_cases h1 : dictGet it "type" (jstrS "") = jstrS "thinking"
      · rw [if_pos h1]; exact hrest isFirst
      · rw [if_neg h1]
        by_cases h2 : dictGet it "type" (jstrS "") = jstrS "text"
        · rw [if_pos h2]
          have hs : isJStr (dictGet it "text" (jstrS "")) = true := by
            unfold goodItem at hit
            rw [Bool.and_eq_true] at hit
            have := hit.1
            rwa [if_pos h2] at this
          obtain ⟨fh, hfh⟩ := processTextItem_ok it hd hs
          rw [hfh]
          by_cases hb : fh.2
          · obtain ⟨r, hr⟩ := hrest true
            refine ⟨fh.1 :: r, ?_⟩
            rw [show (match Except.ok fh with
                | Except.error e => (Except.error e : Except PyError (List (List Char)))
                | Except.ok fh =>
                  if fh.2 then
                    match pclGo pack rest true with
                    | Except.error e => Except.error e
                    | Except.ok r => Except.ok (fh.1 :: r)
                  else pclGo pack rest isFirst)
              = (if fh.2 then
                  match pclGo pack rest true with
                  | Except.error e => (Except.error e : Except PyError (List (List Char)))
                  | Except.ok r => Except.ok (fh.1 :: r)
                else pclGo pack rest isFirst) from rfl]
            rw [if_pos hb, hr]
          · obtain ⟨r, hr⟩ := hrest isFirst
            refine ⟨r, ?_⟩
            rw [show (match Except.ok fh with
                | Except.error e => (Except.error e : Except PyError (List (List Char)))
                | Except.ok fh =>
                  if fh.2 then
                    match pclGo pack rest true with
                    | Except.error e => Except.error e
                    | Except.ok r => Except.ok (fh.1 :: r)
                  else pclGo pack rest isFirst)
              = (if fh.2 then
                  match pclGo pack rest true with
                  | Except.error e => (Except.error e : Except PyError (List (List Char)))
                  | Except.ok r => Except.ok (fh.1 :: r)
                else pclGo pack rest isFirst) from rfl]
            rw [if_neg hb, hr]
        · rw [if_neg h2]
          by_cases h3 : dictGet it "type" (jstrS "") = jstrS "tool_use"
          · rw [if_pos h3]
            obtain ⟨f, hf⟩ := processToolUseItem_ok pack it isFirst hd
            obtain ⟨r, hr⟩ := hrest false
            refine ⟨f :: r, ?_⟩
            rw [hf, hr]
          · rw [if_neg h3]
            by_cases h4 : dictGet it "type" (jstrS "") = jstrS "tool_result"
            · rw [if_pos h4]
              have hs : isJStr (dictGet it "content" (jstrS "")) = true := by
                unfold goodItem at hit
                rw [Bool.and_eq_true] at hit
                have := hit.2
                rwa [if_pos h4] at this
              obtain ⟨f, hf⟩ := processToolResultItem_ok pack it hd hs
              obtain ⟨r, hr⟩ := hrest isFirst
              refine ⟨f :: r, ?_⟩
              rw [hf, hr]
            · rw [if_neg h4]; exact hrest isFirst
    · rw [if_neg hd]; exact hrest isFirst

theorem processContentList_ok (pack : LangPack) (content : JVal)
    (h : ∀ it ∈ arrToList content, goodItem it = true) :
    ∃ co, processContentList pack content = .ok co := by
  obtain ⟨ps, hps⟩ := pclGo_ok pack (arrToList content) h true
  exact ⟨_, by unfold processContentList; rw [hps]⟩

theorem contentRender_ok (pack : LangPack) (content : JVal)
    (h : isArr content = true → ∀ it ∈ arrToList content, goodItem it = true) :
    ∃ co, contentRender pack content = .ok co := by
  by_cases ha : isArr content
  · obtain ⟨co, hco⟩ := processContentList_ok pack content (h ha)
    exact ⟨co, by unfold contentRender; rw [if_pos ha]; exact hco⟩
  · cases content with
    | jstr s => exact ⟨_, by unfold contentRender; rw [if_neg ha]⟩
    | jnull => exact ⟨_, by unfold contentRender; rw [if_neg ha]⟩
    | jbool b => exact ⟨_, by unfold contentRender; rw [if_neg ha]⟩
    | jnum n => exact ⟨_, by unfold contentRender; rw [if_neg ha]⟩
    | jarrNil => exact absurd rfl ha
    | jarrCons x t => exact absurd rfl ha
    | jobjNil => exact ⟨_, by unfold contentRender; rw [if_neg ha]⟩
    | jobjCons k v t => exact ⟨_, by unfold contentRender; rw [if_neg ha]⟩

theorem formatTimestampE_ok (v : JVal) (h : tsOk v = true) :
    ∃ ft, formatTimestampE v = .ok ft := by
  by_cases ht : pyTruthy v
  · have hj : isJStr v = true := by
      unfold tsOk at h
      rw [Bool.or_eq_true] at h
      rcases h with h1 | h2
      · exact h1
      · rw [ht] at h2; cases h2
    cases v with
    | jstr s => exact ⟨format_timestamp s, by simp [formatTimestampE, ht]⟩
    | jnull => cases hj
    | jbool b => cases hj
    | jnum n => cases hj
    | jarrNil => cases hj
    | jarrCons x t => cases hj
    | jobjNil => cases hj
    | jobjCons k x t => cases hj
  · exact ⟨[], by simp [formatTimestampE, ht]⟩

theorem goodRecord_parts (r : JVal) (hg : goodRecord r = true) :
    isDict r = true ∧ isDict (dictGet r "message" .jobjNil) = true
      ∧ tsOk (dictGet r "timestamp" (jstrS "")) = true
      ∧ (isArr (dictGet (dictGet r "message" .jobjNil) "content" (jstrS "")) = true →
          ∀ it ∈ arrToList (dictGet (dictGet r "message" .jobjNil) "content" (jstrS "")),
            goodItem it = true) := by
  unfold goodRecord at hg
  rw [Bool.and_eq_true, Bool.and_eq_true, Bool.and_eq_true] at hg
  refine ⟨hg.1.1.1, hg.1.1.2, hg.1.2, ?_⟩
  intro ha it hit
  have := hg.2
  rw [if_pos ha] at this
  exact List.all_eq_true.mp this it hit

theorem extract_message_ok (pack : LangPack) (data : JVal) (hg : goodRecord data = true) :
    ∃ out, extract_message pack data = .ok out := by
  obtain ⟨hd, hmsg, hts, hcont⟩ := goodRecord_parts data hg
  unfold extract_message
  simp only [pyGetE_dict data "type" (jstrS "") hd, pyGetE_dict data "message" .jobjNil hd,
    pyGetE_dict data "timestamp" (jstrS "") hd]
  by_cases hty : dictGet data "type" (jstrS "") = jstrS "user"
      ∨ dictGet data "type" (jstrS "") = jstrS "assistant"
  · rw [if_pos hty]
    simp only [pyGetE_dict _ "role" (jstrS "") hmsg, pyGetE_dict _ "content" (jstrS "") hmsg]
    by_cases hnull : dictGet (dictGet data "message" .jobjNil) "content" (jstrS "") = .jnull
    · rw [if_pos hnull]; exact ⟨[], rfl⟩
    · rw [if_neg hnull]
      obtain ⟨ft, hft⟩ := formatTimestampE_ok _ hts
      simp only [hft]
      obtain ⟨co, hco⟩ := contentRender_ok pack _ hcont
      simp only [hco]
      by_cases hco2 : co.2
      · rw [if_pos hco2]; exact ⟨_, rfl⟩
      · simp only [hco2, Bool.false_eq_true, if_false, ite_false]
        exact ⟨[], by simp [hco2]⟩
  · rw [if_neg hty]; exact ⟨[], rfl⟩

theorem headerE_ok (pack : LangPack) (m : MsgObj) (hd : isDict m.data = true)
    (hts : tsOk (dictGet m.data "timestamp" (jstrS "")) = true) :
    ∃ h, headerE pack m = .ok h := by
  obtain ⟨ft, hft⟩ := formatTimestampE_ok _ hts
  refine ⟨formatHeader pack m.role ft, ?_⟩
  unfold headerE
  rw [pyGetE_dict m.data "timestamp" (jstrS "") hd, ok_bind, hft, ok_bind]
  rfl

theorem wellRendered_of_good (pack : LangPack) (m : MsgObj)
    (hg : goodRecord m.data = true) : wellRendered pack m = true := by
  obtain ⟨hd, _, hts, _⟩ := goodRecord_parts m.data hg
  obtain ⟨hh, hhh⟩ := headerE_ok pack m hd hts
  obtain ⟨out, hout⟩ := extract_message_ok pack m.data hg
  unfold wellRendered
  rw [hhh, hout]
  rfl

theorem classifyRecord_ok (r : JVal) (hg : goodRecord r = true) :
    classifyRecord r = .ok none
      ∨ ∃ m : MsgObj, classifyRecord r = .ok (some m) ∧ m.data = r := by
  obtain ⟨hd, hmsg, _, _⟩ := goodRecord_parts r hg
  unfold classifyRecord
  simp only [pyGetE_dict r "type" .jnull hd]
  by_cases h1 : dictGet r "type" .jnull = jstrS "file-history-snapshot"
  · rw [if_pos h1]; exact Or.inl rfl
  · rw [if_neg h1]
    simp only [pyGetE_dict r "type" (jstrS "") hd]
    by_cases h2 : dictGet r "type" (jstrS "") = jstrS "user"
        ∨ dictGet r "type" (jstrS "") = jstrS "assistant"
    · rw [if_pos h2]
      simp only [pyGetE_dict r "message" .jobjNil hd,
        pyGetE_dict _ "role" (jstrS "") hmsg, pyGetE_dict _ "content" (jstrS "") hmsg]
      by_cases h3 : dictGet (dictGet r "message" .jobjNil) "content" (jstrS "") = .jnull
      · rw [if_pos h3]; exact Or.inl rfl
      · rw [if_neg h3]
        by_cases h4 : (!hasNonWs (analyze_content
              (dictGet (dictGet r "message" .jobjNil) "content" (jstrS ""))).text
            && !(analyze_content
              (dictGet (dictGet r "message" .jobjNil) "content" (jstrS ""))).hasTools) = true
        · rw [if_pos h4]; exact Or.inl rfl
        · rw [if_neg h4]
          exact Or.inr ⟨_, rfl, rfl⟩
    · rw [if_neg h2]; exact Or.inl rfl

theorem recGo_cons (pack : LangPack) (r : JVal) (rest : List JVal)
    (pending : List MsgObj) (acc : List Char) (count : Nat) :
    recGo pack (r :: rest) pending acc count =
      (match classifyRecord r with
      | .error e => .error e
      | .ok none => recGo pack rest pending acc count
      | .ok (some m) =>
        match pending with
        | [] => recGo pack rest [m] acc count
        | p0 :: _ =>
          if m.role = p0.role then recGo pack rest (pending ++ [m]) acc count
          else
            match flushRes (format_merged_messages pack pending) acc count with
            | .error e => .error e
            | .ok ac => recGo pack rest [m] ac.1 ac.2) := rfl

theorem recGo_ok (pack : LangPack) (records : List JVal) :
    ∀ (pending : List MsgObj) (acc : List Char) (count : Nat),
      (∀ r ∈ records, goodRecord r = true) →
      (∀ m ∈ pending, wellRendered pack m = true) →
      ∃ out, recGo pack records pending acc count = .ok out := by
  induction records with
  | nil =>
    intro pending acc count _ hp
    cases pending with
    | nil => exact ⟨(acc, count), rfl⟩
    | cons p0 ps =>
      obtain ⟨f, hf, hfne⟩ := fmm_ok_ne pack p0 ps hp
      refine ⟨(acc ++ f, count + 1), ?_⟩
      show flushRes (format_merged_messages pack (p0 :: ps)) acc count = _
      rw [hf]
      show (if f = [] then (Except.ok (acc, count) : Except PyError (List Char × Nat))
        else Except.ok (acc ++ f, count + 1)) = _
      rw [if_neg hfne]
  | cons r rest ih =>
    intro pending acc count hr hp
    have hg := hr r (by simp)
    have hrest : ∀ x ∈ rest, goodRecord x = true := fun x hx => hr x (by simp [hx])
    rw [recGo_cons]
    rcases classifyRecord_ok r hg with hnone | ⟨m, hsome, hdata⟩
    · simp only [hnone]
      exact ih pending acc count hrest hp
    · simp only [hsome]
      have hwm : wellRendered pack m = true := wellRendered_of_good pack m (by rw [hdata]; exact hg)
      cases pending with
      | nil =>
        exact ih [m] acc count hrest (by intro x hx; simp at hx; rw [hx]; exact hwm)
      | cons p0 ps =>
        show ∃ out, (if m.role = p0.role then recGo pack rest ((p0 :: ps) ++ [m]) acc count
          else
            match flushRes (format_merged_messages pack (p0 :: ps)) acc count with
            | Except.error e => Except.error e
            | Except.ok ac => recGo pack rest [m] ac.1 ac.2) = Except.ok out
        by_cases hrole : m.role = p0.role
        · rw [if_pos hrole]
          exact ih ((p0 :: ps) ++ [m]) acc count hrest (by
            intro x hx
            rcases List.mem_append.mp hx with h1 | h2
            · exact hp x h1
            · simp at h2; rw [h2]; exact hwm)
        · rw [if_neg hrole]
          obtain ⟨f, hf, hfne⟩ := fmm_ok_ne pack p0 ps hp
          have hflush : flushRes (format_merged_messages pack (p0 :: ps)) acc count
              = .ok (acc ++ f, count + 1) := by
            show flushRes _ acc count = _
            rw [hf]
            show (if f = [] then (Except.ok (acc, count) : Except PyError (List Char × Nat))
              else Except.ok (acc ++ f, count + 1)) = _
            rw [if_neg hfne]
          rw [hflush]
          exact ih [m] (acc ++ f) (count + 1) hrest
            (by intro x hx; simp at hx; rw [hx]; exact hwm)

/-- C3 (amended).  Well-shaped records — mappings whose `message` is a
mapping (a missing `role` is fine and defaults to the empty string), whose
timestamp is a string or absent, and whose `tool_result`/`text` items
carry string fields — never raise: the whole stream processes to a
result.  (Unexpected shapes that do not support the operations applied to
them, e.g. an integer `tool_result.content` hitting `len()`, raise a
`TypeError` that escapes the per-record loop and aborts the rest of the
file; see the counterexample.) -/
theorem no_raise_on_wellshaped (pack : LangPack) (records : List JVal)
    (h : ∀ r ∈ records, goodRecord r = true) :
    ∃ out, processRecords pack records = .ok out :=
  recGo_ok pack records [] [] 0 h (by intro m hm; cases hm)

/-- Witness for C3 (amended): a record with no `role` field is processed
without error. -/
theorem no_raise_on_wellshaped_witness :
    (∀ r ∈ [recMissingRole], goodRecord r = true) ∧
      ∃ out, processRecords packZh [recMissingRole] = .ok out :=
  ⟨by decide, no_raise_on_wellshaped packZh [recMissingRole] (by decide)⟩

/-- Counterexample to C3 as stated: a `tool_result` whose `content` is the
integer 3 makes `len()` raise `TypeError` when its group is flushed; the
error escapes the per-record loop, so the trailing "bye" record is never
processed and the whole file's processing aborts. -/
theorem int_tool_result_content_raises :
    processRecords packZh [recUserHi, recAsstIntTool, recUserBye] = .error .typeErr := rfl

/-! ### Filename derivation (C7, C8) -/

theorem utf8Len_truncBytesF (maxB : Nat) :
    ∀ (fuel : Nat) (t : List Char), t.length ≤ fuel →
      utf8Len (truncBytesF fuel t maxB) ≤ maxB := by
  intro fuel
  induction fuel with
  | zero =>
    intro t ht
    have hnil : t = [] := List.length_eq_zero.mp (Nat.le_zero.mp ht)
    subst hnil
    exact Nat.zero_le maxB
  | succ n ih =>
    intro t ht
    unfold truncBytesF
    by_cases hc : maxB < utf8Len t && !t.isEmpty
    · rw [if_pos hc]
      apply ih
      rw [Bool.and_eq_true] at hc
      have hne : t ≠ [] := by simpa using hc.2
      rw [List.length_dropLast]
      cases t with
      | nil => exact absurd rfl hne
      | cons c cs => simp at ht ⊢; omega
    · rw [if_neg hc]
      by_cases h1 : maxB < utf8Len t
      · have hnil : t = [] := by
          cases t with
          | nil => rfl
          | cons c cs => exact absurd (by simp [h1]) hc
        subst hnil
        exact Nat.zero_le maxB
      · omega

theorem mem_truncBytesF (maxB : Nat) :
    ∀ (fuel : Nat) (t : List Char) (c : Char), c ∈ truncBytesF fuel t maxB → c ∈ t := by
  intro fuel
  induction fuel with
  | zero => exact fun t c h => h
  | succ n ih =>
    intro t c h
    unfold truncBytesF at h
    by_cases hc : maxB < utf8Len t && !t.isEmpty
    · rw [if_pos hc] at h
      exact List.mem_of_mem_dropLast (ih t.dropLast c h)
    · rw [if_neg hc] at h
      exact h

/-- C7 (amended).  The derived filename is
`{originalBaseName}_{meaningfulText}.txt` when the meaningful text is
non-empty and `{originalBaseName}.txt` otherwise, where `originalBaseName`
is the input identifier with *every occurrence* of `.jsonl` removed (for
an ordinary name ending in a single `.jsonl` this equals extension
removal, but not in general — see the counterexample); the meaningful-text
portion never exceeds `MAX_FILENAME_BYTES` (60) UTF-8 bytes and contains
only word characters, CJK ideographs, underscore and hyphen. -/
theorem generate_filename_spec (content originalName : List Char) :
    generate_filename content originalName
      = (if truncate_filename_bytes
            (clean_filename_text (joinWith '_' (extract_meaningful_lines content 2)))
            MAX_FILENAME_BYTES = [] then
          removeJsonl originalName ++ ".txt".data
        else
          removeJsonl originalName ++ "_".data
            ++ truncate_filename_bytes
              (clean_filename_text (joinWith '_' (extract_meaningful_lines content 2)))
              MAX_FILENAME_BYTES
            ++ ".txt".data)
    ∧ utf8Len (truncate_filename_bytes
        (clean_filename_text (joinWith '_' (extract_meaningful_lines content 2)))
        MAX_FILENAME_BYTES) ≤ MAX_FILENAME_BYTES
    ∧ ∀ c ∈ truncate_filename_bytes
        (clean_filename_text (joinWith '_' (extract_meaningful_lines content 2)))
        MAX_FILENAME_BYTES, (isWordChar c || c = '-') = true := by
  refine ⟨rfl, utf8Len_truncBytesF MAX_FILENAME_BYTES _ _ (Nat.le_refl _), ?_⟩
  intro c hc
  have hmem := mem_truncBytesF MAX_FILENAME_BYTES _ _ c hc
  exact (List.mem_filter.mp hmem).2

/-- Counterexample to C7 as stated: `replace('.jsonl','')` removes every
occurrence, so the identifier `"a.jsonl.jsonl"` yields base name `"a"`
rather than the extension-stripped `"a.jsonl"`. -/
theorem replace_removes_all_occurrences :
    generate_filename [] "a.jsonl.jsonl".data = "a.txt".data
    ∧ ¬ generate_filename [] "a.jsonl.jsonl".data = "a.jsonl.txt".data := by
  refine ⟨by decide, by decide⟩

theorem emlGo_cons (l : List Char) (rest : List (List Char)) (n : Nat) :
    emlGo (l :: rest) (n + 1)
      = (match lineContribution l with
        | some cl => cl :: emlGo rest n
        | none => emlGo rest (n + 1)) := rfl

/-- C8 (amended).  The meaningful-line scan skips separator-only lines,
lines beginning with one of the four icon glyphs, ISO-timestamp-prefixed
lines, lines beginning with one of the *fixed* prefixes
`参数`/`Args`/`Result`/`结果` (the zh/en parameter labels — not the
selected pack's localized labels), and lines whose stripped form starts
with an opening brace: such a line contributes nothing to the collected
meaningful lines. -/
theorem meaningful_scan_skips (l : List Char)
    (h : sepOnlyLine l = true ∨ iconStartLine l = true ∨ tsStartLine l = true
      ∨ labelStartLine l = true ∨ braceStartLine l = true) :
    lineContribution l = none
    ∧ ∀ (rest : List (List Char)) (n : Nat), emlGo (l :: rest) (n + 1) = emlGo rest (n + 1) := by
  have hnone : lineContribution l = none := by
    unfold lineContribution
    split_ifs with h1 h2 h3 h4 h5 h6 h7
    · rfl
    · rfl
    · rfl
    · rfl
    · rfl
    · exfalso
      rcases h with hh | hh | hh | hh | hh <;> simp_all
    · rfl
    · rfl
  exact ⟨hnone, fun rest n => by rw [emlGo_cons, hnone]⟩

/-- Witness for C8 (amended): a line starting with the fixed prefix
`Args` is skipped. -/
theorem meaningful_scan_skips_witness :
    (sepOnlyLine "Args: foo".data = true ∨ iconStartLine "Args: foo".data = true
      ∨ tsStartLine "Args: foo".data = true ∨ labelStartLine "Args: foo".data = true
      ∨ braceStartLine "Args: foo".data = true)
    ∧ lineContribution "Args: foo".data = none :=
  ⟨Or.inr (Or.inr (Or.inr (Or.inl (by decide)))),
   (meaningful_scan_skips "Args: foo".data
     (Or.inr (Or.inr (Or.inr (Or.inl (by decide)))))).1⟩

/-- Counterexample to C8 as stated: with French selected, the localized
parameter label `Paramètres:` does not match any of the fixed skip
prefixes, so a parameter line is collected as "meaningful" instead of
being skipped. -/
theorem localized_label_not_skipped :
    (selectLang "fr").param = "Paramètres:"
    ∧ lineContribution ((selectLang "fr").param.data ++ " abcd".data)
        = some ("Paramètres: abcd".data)
    ∧ extract_meaningful_lines ((selectLang "fr").param.data ++ " abcd".data) 2
        = ["Paramètres: abcd".data] := by
  refine ⟨by decide, by decide, by decide⟩
